import Mathlib

/-!
Verification of the GELF logging handler pipeline (`graypy/handler.py`).

The development shallowly embeds the pieces of the module that the claims
touch: the `ChunkedGELF` UDP chunker, the UDP send branch, the field
extractor (`_make_message_dict` / `_add_extra_fields`), the sanitizer and
compact JSON serializer (`_sanitize` / `_message_to_pickle`), a JSON reader
modelling `json.loads` on the serializer's outputs, and the TCP handler's
construction and `makePickle`.

Bytes are modelled as `Nat` values (< 256 where produced by the code);
Python byte strings are `List Nat`; Python text strings are Lean `String`.
Fallible Python code (raising `struct.error`, `ZeroDivisionError`,
`AttributeError`, `TypeError`) is modelled with `Option`/`Except`.
-/

set_option maxRecDepth 4096

/-- `struct.pack('B', n)`: one unsigned byte; raises `struct.error`
(modelled as `none`) unless `0 ≤ n ≤ 255`. -/
def packB (n : Nat) : Option (List Nat) :=
  if n ≤ 255 then some [n] else none

/-- `struct.pack('Q', n)`: eight bytes, native (little-endian) order.
`random.randint(0, 0xFFFFFFFFFFFFFFFF)` always supplies an in-range value;
the reduction modulo 256 per byte position is exact for such inputs. -/
def packQ (n : Nat) : List Nat :=
  [n % 256, n / 256 % 256, n / 256 ^ 2 % 256, n / 256 ^ 3 % 256,
   n / 256 ^ 4 % 256, n / 256 ^ 5 % 256, n / 256 ^ 6 % 256, n / 256 ^ 7 % 256]

/-- `int(math.ceil(a * 1.0 / b))` for `b > 0`.  The float division is exact
for every magnitude reachable here (quotients below 2^52), so the ceiling
is the integer ceiling `⌈a / b⌉ = (a + b - 1) / b`. -/
def pyCeilDiv (a b : Nat) : Nat := (a + b - 1) / b

/-- State of a constructed `ChunkedGELF` instance: the fields set by
`__init__` and never mutated afterwards. -/
structure ChunkedGELF where
  message : List Nat
  size : Nat
  /-- `struct.pack('B', int(math.ceil(len(message) * 1.0 / size)))` -/
  pieces : List Nat
  /-- `struct.pack('Q', random.randint(0, 0xFFFFFFFFFFFFFFFF))` -/
  id : List Nat
  deriving DecidableEq, Repr

instance : Inhabited ChunkedGELF := ⟨⟨[], 1, [0], packQ 0⟩⟩

/-- `ChunkedGELF.__init__(message, size)`, with the random draw for the
message id passed in as `rand`.  `size = 0` raises `ZeroDivisionError` in
`len(message) * 1.0 / size`; a chunk count above 255 raises `struct.error`
inside `struct.pack('B', ...)`.  Both are modelled as `none`. -/
def ChunkedGELF.init (message : List Nat) (size : Nat) (rand : Nat) :
    Option ChunkedGELF :=
  if size = 0 then none
  else (packB (pyCeilDiv message.length size)).map fun p =>
    { message := message, size := size, pieces := p, id := packQ rand }

/-- `ChunkedGELF.message_chunks`: the slices `message[i:i+size]` for
`i in range(0, len(message), size)`, written with `i = k * size` for
`k < ⌈len(message) / size⌉` (the length of that `range` when `size > 0`;
instances produced by `ChunkedGELF.init` always have `size > 0`). -/
def ChunkedGELF.message_chunks (c : ChunkedGELF) : List (List Nat) :=
  (List.range (pyCeilDiv c.message.length c.size)).map fun k =>
    (c.message.drop (k * c.size)).take c.size

/-- `ChunkedGELF.encode(sequence, chunk)`: magic bytes, message id,
sequence byte, total-count byte, payload slice.  `struct.pack('B',
sequence)` raises for `sequence > 255`. -/
def ChunkedGELF.encode (c : ChunkedGELF) (sequence : Nat) (chunk : List Nat) :
    Option (List Nat) :=
  (packB sequence).map fun s => [0x1e, 0x0f] ++ c.id ++ s ++ c.pieces ++ chunk

/-- One full consumption of the generator returned by
`ChunkedGELF.__iter__`: the encoded chunks of `enumerate(message_chunks())`
in order.  A failing `struct.pack` inside `encode` aborts the iteration. -/
def ChunkedGELF.iterChunks (c : ChunkedGELF) : Option (List (List Nat)) :=
  c.message_chunks.enum.mapM fun sc => c.encode sc.1 sc.2

/-- The chunk sequence delivered by the first `for chunk in instance` loop
over a `ChunkedGELF` instance. -/
def ChunkedGELF.firstConsumption (c : ChunkedGELF) : Option (List (List Nat)) :=
  c.iterChunks

/-- The chunk sequence delivered by a second `for chunk in instance` loop
over the same instance.  `__iter__` is a generator function reading only
the fields frozen at construction, and no field is ever assigned after
`__init__`, so the second loop runs the same computation on the same
state. -/
def ChunkedGELF.secondConsumption (c : ChunkedGELF) : Option (List (List Nat)) :=
  c.iterChunks

/-- Outcome of `GELFUDPHandler.send`: either one unchunked datagram or the
datagrams of a `ChunkedGELF` iteration. -/
inductive UdpSend where
  | single (datagram : List Nat)
  | chunked (datagrams : Option (List (List Nat)))
  deriving DecidableEq, Repr

/-- `GELFUDPHandler.send(s)`: sends `s` itself when
`len(s) < self.chunk_size`, otherwise iterates `ChunkedGELF(s, chunk_size)`
and sends each chunk. -/
def GELFUDPHandler.send (chunk_size : Nat) (rand : Nat) (s : List Nat) :
    UdpSend :=
  if s.length < chunk_size then .single s
  else .chunked ((ChunkedGELF.init s chunk_size rand).bind ChunkedGELF.iterChunks)

/-- The frame of chunk number `k` of a constructed chunker. -/
def chunkFrame (c : ChunkedGELF) (k : Nat) : List Nat :=
  [0x1e, 0x0f] ++ c.id ++ [k] ++ c.pieces ++ ((c.message.drop (k * c.size)).take c.size)

/-! ## Python values

The value domain of a GELF document: the Python values the handler moves
through `_sanitize` and `json.dumps`.  Text strings are Lean `String`s,
byte strings are `List Nat`.  A `datetime` is carried by its `isoformat()`
string, and any other non-JSON-serializable object by its `repr()` string —
exactly the two pieces of information `_smarter_repr` extracts from them.
Floats are outside the model (no modelled field or claim computes with
one); an unrendered float can be carried as `obj` where only its repr
matters. -/

mutual

inductive PyVal : Type where
  | str (s : String)
  | bytes (b : List Nat)
  | int (n : Int)
  | bool (b : Bool)
  | pynone
  | datetime (iso : String)
  | obj (rep : String)
  | list (l : PyList)
  | tuple (l : PyList)
  | dict (d : PyDict)
  deriving DecidableEq

inductive PyList : Type where
  | nil
  | cons (hd : PyVal) (tl : PyList)
  deriving DecidableEq

inductive PyDict : Type where
  | nil
  | cons (key : PyVal) (val : PyVal) (tl : PyDict)
  deriving DecidableEq

end

/-! ## Field extractor (`BaseGELFHandler._make_message_dict`) -/

/-- The slice of a `logging.LogRecord` that `_make_message_dict` reads.
External renderings (the formatted traceback for `exc_info`, the message
from `getMessage()`) are carried as fields.  `attrs` is
`record.__dict__.items()` in the record's own iteration order, as consumed
by `_add_extra_fields`. -/
structure LogRecord where
  name : String
  levelno : Int
  pathname : String
  lineno : Int
  /-- `record.created`, carried opaquely (a float timestamp). -/
  created : PyVal
  /-- The result of `record.getMessage()`. -/
  getMessage : String
  /-- `'\n'.join(traceback.format_exception(*record.exc_info))` when
  `record.exc_info` is truthy, else `none`. -/
  excInfo : Option String
  /-- `record.exc_text` (`none` models Python `None`). -/
  excText : Option String
  funcName : String
  process : Option Int
  threadName : Option String
  /-- `getattr(record, 'processName', None)`. -/
  processName : Option String
  attrs : List (String × PyVal)

/-- The configuration fields `BaseGELFHandler.__init__` stores, plus the
`logging.Handler` formatter slot. -/
structure BaseGELFHandler where
  chunk_size : Nat
  debugging_fields : Bool
  extra_fields : Bool
  fqdn : Bool
  localname : Option String
  facility : Option String
  level_names : Bool
  compress : Bool
  formatter : Option (LogRecord → String)

/-- The module-level `SYSLOG_LEVELS` table
(`logging.CRITICAL = 50`, `ERROR = 40`, `WARNING = 30`, `INFO = 20`,
`DEBUG = 10`). -/
def SYSLOG_LEVELS : List (Int × Int) :=
  [(50, 2), (40, 3), (30, 4), (20, 6), (10, 7)]

/-- `SYSLOG_LEVELS.get(levelno, levelno)`. -/
def syslogLevel (levelno : Int) : Int :=
  (SYSLOG_LEVELS.lookup levelno).getD levelno

/-- `logging.getLevelName` for the level-name table as shipped by the
`logging` module. -/
def getLevelName (n : Int) : String :=
  if n = 50 then "CRITICAL"
  else if n = 40 then "ERROR"
  else if n = 30 then "WARNING"
  else if n = 20 then "INFO"
  else if n = 10 then "DEBUG"
  else if n = 0 then "NOTSET"
  else "Level " ++ toString n

/-- Truthiness of an optional Python string (`None` and `''` are falsy). -/
def truthyStr : Option String → Bool
  | none => false
  | some s => s ≠ ""

/-- Python `s.startswith(p)`: `p` is a prefix of `s` (character-wise). -/
def pyStartsWith (s p : String) : Bool := p.data.isPrefixOf s.data

/-- Python dict assignment `d[k] = v` on an insertion-ordered dict:
overwrite in place if the key exists, else append. -/
def dictSet : List (String × PyVal) → String → PyVal → List (String × PyVal)
  | [], k, v => [(k, v)]
  | (k', v') :: tl, k, v =>
    if k' = k then (k', v) :: tl else (k', v') :: dictSet tl k v

/-- The `skip_list` of `_add_extra_fields`. -/
def skip_list : List String :=
  ["args", "asctime", "created", "exc_info", "exc_text", "filename",
   "funcName", "id", "levelname", "levelno", "lineno", "module",
   "msecs", "message", "msg", "name", "pathname", "process",
   "processName", "relativeCreated", "thread", "threadName"]

/-- `BaseGELFHandler._add_extra_fields(message_dict, record)`: every record
attribute whose key is neither in `skip_list` nor starts with `'_'` is
stored under `'_' + key`. -/
def BaseGELFHandler._add_extra_fields (message_dict : List (String × PyVal))
    (attrs : List (String × PyVal)) : List (String × PyVal) :=
  attrs.foldl
    (fun md kv =>
      if !(skip_list.contains kv.1) && !(pyStartsWith kv.1 ("_")) then
        dictSet md ("_" ++ kv.1) kv.2
      else md)
    message_dict

/-- `BaseGELFHandler._get_full_message(record)`. -/
def BaseGELFHandler._get_full_message (record : LogRecord) : String :=
  match record.excInfo with
  | some tb => tb
  | none =>
    match record.excText with
    | some t => if t ≠ "" then t else record.getMessage
    | none => record.getMessage

/-- `BaseGELFHandler._make_message_dict(record)`.  The two hostname sources
`socket.getfqdn()` and `socket.gethostname()` are external inputs, passed
in as `fqdnHost` and `hostname`. -/
def BaseGELFHandler._make_message_dict (h : BaseGELFHandler)
    (fqdnHost hostname : String) (record : LogRecord) :
    List (String × PyVal) :=
  let host :=
    if h.fqdn then fqdnHost
    else if truthyStr h.localname then h.localname.getD ""
    else hostname
  let short :=
    match h.formatter with
    | some f => f record
    | none => record.getMessage
  let full :=
    match h.formatter with
    | some f => f record
    | none => BaseGELFHandler._get_full_message record
  let fields : List (String × PyVal) :=
    [("version", .str "1.0"),
     ("host", .str host),
     ("short_message", .str short),
     ("full_message", .str full),
     ("timestamp", record.created),
     ("level", .int (syslogLevel record.levelno)),
     ("facility",
      .str (if truthyStr h.facility then h.facility.getD "" else record.name))]
  let fields :=
    if h.level_names then
      dictSet fields ("level_name") (.str (getLevelName record.levelno))
    else fields
  let fields :=
    if h.facility.isSome then dictSet fields ("_logger") (.str record.name)
    else fields
  let fields :=
    if h.debugging_fields then
      let fields := dictSet fields ("file") (.str record.pathname)
      let fields := dictSet fields ("line") (.int record.lineno)
      let fields := dictSet fields ("_function") (.str record.funcName)
      let fields := dictSet fields ("_pid")
        (match record.process with | some p => .int p | none => .pynone)
      let fields := dictSet fields ("_thread_name")
        (match record.threadName with | some t => .str t | none => .pynone)
      match record.processName with
      | some pn => dictSet fields ("_process_name") (.str pn)
      | none => fields
    else fields
  if h.extra_fields then BaseGELFHandler._add_extra_fields fields record.attrs
  else fields

/-! ## TCP handler (`GELFTCPHandler`) -/

/-- Python runtime errors the modelled code can raise. -/
inductive PyError where
  | attributeError (msg : String)
  deriving DecidableEq

/-- `GELFTCPHandler.__init__` forwards its configuration to
`BaseGELFHandler.__init__` with the literal `False` for `compress`; the
caller cannot supply a compress flag at all. -/
def GELFTCPHandler.init (chunk_size : Nat)
    (debugging_fields extra_fields fqdn : Bool)
    (localname facility : Option String) (level_names : Bool)
    (formatter : Option (LogRecord → String)) : BaseGELFHandler :=
  { chunk_size := chunk_size, debugging_fields := debugging_fields,
    extra_fields := extra_fields, fqdn := fqdn, localname := localname,
    facility := facility, level_names := level_names, compress := false,
    formatter := formatter }

/-- `GELFTCPHandler.makePickle(record)` as written:
`return super.makePickle(self, record) + b'\x00'`.  The expression
`super.makePickle` looks up the attribute `makePickle` on the builtin type
`super` itself (not on a `super(...)` proxy object), which raises
`AttributeError` before any serialization or framing happens, on every
record. -/
def GELFTCPHandler.makePickle (_record : LogRecord) : Except PyError (List Nat) :=
  .error (.attributeError "type object super has no attribute makePickle")

/-! ## Sanitizer (`BaseGELFHandler._sanitize`) -/

/-- U+FFFD, the replacement character. -/
def replacementChar : Char := Char.ofNat 0xFFFD

/-- A UTF-8 continuation byte. -/
def utf8Cont (b : Nat) : Bool := 0x80 ≤ b && b < 0xC0

/-- The decode loop, fuelled (each step consumes at least one byte, so
the input length bounds the steps). -/
def utf8DecodeAux : Nat → List Nat → List Char
  | 0, _ => []
  | _ + 1, [] => []
  | fuel + 1, b :: rest =>
    if b < 0x80 then Char.ofNat b :: utf8DecodeAux fuel rest
    else if 0xC2 ≤ b && b ≤ 0xDF then
      match rest with
      | c1 :: rest' =>
        if utf8Cont c1 then
          Char.ofNat ((b - 0xC0) * 0x40 + (c1 - 0x80)) :: utf8DecodeAux fuel rest'
        else replacementChar :: utf8DecodeAux fuel (c1 :: rest')
      | [] => [replacementChar]
    else if 0xE0 ≤ b && b ≤ 0xEF then
      match rest with
      | c1 :: c2 :: rest' =>
        if (if b = 0xE0 then 0xA0 ≤ c1 && c1 < 0xC0
            else if b = 0xED then 0x80 ≤ c1 && c1 < 0xA0
            else utf8Cont c1) && utf8Cont c2 then
          Char.ofNat ((b - 0xE0) * 0x1000 + (c1 - 0x80) * 0x40 + (c2 - 0x80)) ::
            utf8DecodeAux fuel rest'
        else replacementChar :: utf8DecodeAux fuel (c1 :: c2 :: rest')
      | _ => [replacementChar]
    else if 0xF0 ≤ b && b ≤ 0xF4 then
      match rest with
      | c1 :: c2 :: c3 :: rest' =>
        if (if b = 0xF0 then 0x90 ≤ c1 && c1 < 0xC0
            else if b = 0xF4 then 0x80 ≤ c1 && c1 < 0x90
            else utf8Cont c1) && utf8Cont c2 && utf8Cont c3 then
          Char.ofNat ((b - 0xF0) * 0x40000 + (c1 - 0x80) * 0x1000 +
              (c2 - 0x80) * 0x40 + (c3 - 0x80)) :: utf8DecodeAux fuel rest'
        else replacementChar :: utf8DecodeAux fuel (c1 :: c2 :: c3 :: rest')
      | _ => [replacementChar]
    else replacementChar :: utf8DecodeAux fuel rest

/-- `bytes.decode('utf-8', errors='replace')`: valid sequences decode to
their code point; invalid bytes are replaced with U+FFFD.  (CPython
replaces each maximal invalid subsequence; this model re-synchronises at
the next byte.  No claim depends on the decoded text of invalid input.) -/
def utf8DecodeReplace (l : List Nat) : List Char :=
  utf8DecodeAux (l.length + 1) l

/-- `bytes.decode('utf-8', errors='replace')` as a `String`. -/
def utf8Str (b : List Nat) : String := String.mk (utf8DecodeReplace b)

/-- Python dict insertion `d[k] = v`: updating an existing (equal) key
keeps the original key object and position; a new key is appended. -/
def PyDict.setKey : PyDict → PyVal → PyVal → PyDict
  | .nil, k, v => .cons k v .nil
  | .cons k' v' tl, k, v =>
    if k' = k then .cons k' v tl else .cons k' v' (tl.setKey k v)

mutual

/-- `BaseGELFHandler._sanitize`: mappings are rebuilt key-and-value-wise,
sequences element-wise preserving their kind, byte strings are decoded
permissively; everything else passes through. -/
def PyVal.sanitize : PyVal → PyVal
  | .dict d => .dict (PyDict.sanitizeInto .nil d)
  | .list l => .list l.sanitizeItems
  | .tuple l => .tuple l.sanitizeItems
  | .bytes b => .str (utf8Str b)
  | v => v

def PyList.sanitizeItems : PyList → PyList
  | .nil => .nil
  | .cons hd tl => .cons hd.sanitize tl.sanitizeItems

/-- The dict comprehension
`dict((_sanitize(k), _sanitize(v)) for k, v in obj.items())`: entries are
inserted in iteration order, so sanitized keys that collide keep the first
position with the last value. -/
def PyDict.sanitizeInto : PyDict → PyDict → PyDict
  | acc, .nil => acc
  | acc, .cons k v tl => PyDict.sanitizeInto (acc.setKey k.sanitize v.sanitize) tl

end

/-! ## Serializer (`BaseGELFHandler._message_to_pickle` / `json.dumps`)

`json.dumps(obj, separators=',:', default=BaseGELFHandler._smarter_repr)`:
the two-character string `',:'` unpacks into the item separator `','` and
the key separator `':'`, so no whitespace is inserted between tokens.  The
default `ensure_ascii=True` escapes every non-ASCII character. -/

/-- A lowercase hexadecimal digit character. -/
def hexDigitChar (d : Nat) : Char :=
  if d < 10 then Char.ofNat (48 + d) else Char.ofNat (87 + d)

/-- Four lowercase hex digits of `n < 0x10000`. -/
def hex4 (n : Nat) : List Char :=
  [hexDigitChar (n / 4096 % 16), hexDigitChar (n / 256 % 16),
   hexDigitChar (n / 16 % 16), hexDigitChar (n % 16)]

/-- The `ensure_ascii` JSON encoding of one character: `"` and `\`
escaped, the named control escapes, other printable ASCII literal,
everything else `\uXXXX` (with a surrogate pair above U+FFFF). -/
def encodeJsonChar (c : Char) : List Char :=
  if c = '"' then ['\\', '"']
  else if c = '\\' then ['\\', '\\']
  else if c = Char.ofNat 8 then ['\\', 'b']
  else if c = Char.ofNat 9 then ['\\', 't']
  else if c = Char.ofNat 10 then ['\\', 'n']
  else if c = Char.ofNat 12 then ['\\', 'f']
  else if c = Char.ofNat 13 then ['\\', 'r']
  else if 0x20 ≤ c.toNat && c.toNat ≤ 0x7E then [c]
  else if c.toNat < 0x10000 then '\\' :: 'u' :: hex4 c.toNat
  else
    ('\\' :: 'u' :: hex4 (0xD800 + (c.toNat - 0x10000) / 0x400)) ++
    ('\\' :: 'u' :: hex4 (0xDC00 + (c.toNat - 0x10000) % 0x400))

/-- A JSON string literal for `s`. -/
def encodeJsonString (s : String) : List Char :=
  '"' :: (s.data.map encodeJsonChar).flatten ++ ['"']

/-- Decimal digits of `n`, most significant first (`repr` of a natural). -/
def natReprAux : Nat → Nat → List Char
  | 0, _ => []
  | fuel + 1, n =>
    if n = 0 then []
    else natReprAux fuel (n / 10) ++ [Char.ofNat (48 + n % 10)]

/-- `repr(n)` for a natural number. -/
def natRepr (n : Nat) : List Char :=
  if n = 0 then ['0'] else natReprAux n n

/-- `repr(n)` for a Python int. -/
def intRepr (n : Int) : List Char :=
  if n < 0 then '-' :: natRepr n.natAbs else natRepr n.toNat

/-- One byte inside `repr` of a bytes object, `q` being the chosen quote
code. -/
def bytesReprChar (q : Nat) (b : Nat) : List Char :=
  if b = 92 then ['\\', '\\']
  else if b = q then ['\\', Char.ofNat q]
  else if b = 9 then ['\\', 't']
  else if b = 10 then ['\\', 'n']
  else if b = 13 then ['\\', 'r']
  else if 0x20 ≤ b && b < 0x7F then [Char.ofNat b]
  else ['\\', 'x', hexDigitChar (b / 16 % 16), hexDigitChar (b % 16)]

/-- `repr(b)` for a bytes object: `b'...'` (double-quoted when the content
holds a single quote but no double quote).  Only reachable through the
`default` hook, i.e. never after `_sanitize`. -/
def bytesRepr (b : List Nat) : String :=
  let q : Nat := if b.contains 39 && !(b.contains 34) then 34 else 39
  String.mk ('b' :: Char.ofNat q :: (b.map (bytesReprChar q)).flatten ++ [Char.ofNat q])

/-- Comma-joined parts (the `','` item separator of the compact dump). -/
def joinParts : List (List Char) → List Char
  | [] => []
  | [p] => p
  | p :: ps => p ++ ',' :: joinParts ps

/-- `json.dumps` key coercion: string keys pass through; int, bool and
None keys are stringified; any other key type raises `TypeError`. -/
def jsonKeyStr : PyVal → Option String
  | .str s => some s
  | .int n => some (String.mk (intRepr n))
  | .bool b => some (if b then "true" else "false")
  | .pynone => some "null"
  | _ => none

mutual

/-- Compact `json.dumps` with `default=_smarter_repr`: the fallback
renders a `datetime` as its `isoformat()` string and any other
unsupported object as its `repr()` string, and that string is serialized
as a JSON string. -/
def PyVal.dumps : PyVal → Option (List Char)
  | .str s => some (encodeJsonString s)
  | .bytes b => some (encodeJsonString (bytesRepr b))
  | .int n => some (intRepr n)
  | .bool b => some (if b then ['t', 'r', 'u', 'e'] else ['f', 'a', 'l', 's', 'e'])
  | .pynone => some ['n', 'u', 'l', 'l']
  | .datetime iso => some (encodeJsonString iso)
  | .obj rep => some (encodeJsonString rep)
  | .list l =>
    match l.dumpsItems with
    | some parts => some ('[' :: joinParts parts ++ [']'])
    | none => none
  | .tuple l =>
    match l.dumpsItems with
    | some parts => some ('[' :: joinParts parts ++ [']'])
    | none => none
  | .dict d =>
    match d.dumpsEntries with
    | some parts => some ('{' :: joinParts parts ++ ['}'])
    | none => none

def PyList.dumpsItems : PyList → Option (List (List Char))
  | .nil => some []
  | .cons hd tl =>
    match hd.dumps, tl.dumpsItems with
    | some h, some t => some (h :: t)
    | _, _ => none

def PyDict.dumpsEntries : PyDict → Option (List (List Char))
  | .nil => some []
  | .cons k v tl =>
    match jsonKeyStr k, v.dumps, tl.dumpsEntries with
    | some ks, some vs, some t => some ((encodeJsonString ks ++ ':' :: vs) :: t)
    | _, _, _ => none

end

/-- `BaseGELFHandler._message_to_pickle`: sanitize, then encode as compact
JSON, then `.encode('utf-8')`.  With `ensure_ascii` the JSON text is pure
ASCII, so the UTF-8 bytes are the character codes. -/
def BaseGELFHandler._message_to_pickle (v : PyVal) : Option (List Nat) :=
  (v.sanitize.dumps).map fun w => w.map Char.toNat

/-! ## JSON reader (`json.loads`)

A recursive-descent reader for the JSON grammar as `json.loads` accepts it
(whitespace-tolerant, strict strings, exact `true`/`false`/`null`), giving
back Python values: objects become string-keyed dicts, arrays become
lists.  Two deliberate restrictions, each unreachable from the
serializer's output: a numeric literal with a fraction or exponent (a
Python float, outside the modelled value domain) is rejected, and a lone
surrogate escape (which Python would keep as an unpaired surrogate,
unrepresentable in a Lean `Char`) decodes through `Char.ofNat`'s default. -/

/-- JSON whitespace. -/
def jsonWs (c : Char) : Bool :=
  c = ' ' || c = Char.ofNat 9 || c = Char.ofNat 10 || c = Char.ofNat 13

def skipWs : List Char → List Char
  | [] => []
  | c :: r => if jsonWs c then skipWs r else c :: r

/-- The value of one hex digit (either case). -/
def hexVal (c : Char) : Option Nat :=
  if 48 ≤ c.toNat && c.toNat ≤ 57 then some (c.toNat - 48)
  else if 97 ≤ c.toNat && c.toNat ≤ 102 then some (c.toNat - 87)
  else if 65 ≤ c.toNat && c.toNat ≤ 70 then some (c.toNat - 55)
  else none

def hex4Val (a b c d : Char) : Option Nat :=
  match hexVal a, hexVal b, hexVal c, hexVal d with
  | some x, some y, some z, some w => some (((x * 16 + y) * 16 + z) * 16 + w)
  | _, _, _, _ => none

/-- Reads one escape sequence after a backslash: the decoded character and
the remaining input.  A surrogate pair `\uXXXX\uYYYY` decodes into one
character.  (A lone surrogate, which Python would keep as an unpaired
surrogate character, has no Lean `Char` and is rejected; the serializer
never produces one.) -/
def parseEscape : List Char → Option (Char × List Char)
  | [] => none
  | e :: r =>
    if e = 'u' then
      match r with
      | a :: b :: c :: d :: r2 =>
        match hex4Val a b c d with
        | none => none
        | some n =>
          if n < 0xD800 || 0xE000 ≤ n then some (Char.ofNat n, r2)
          else
            match r2 with
            | '\\' :: 'u' :: a2 :: b2 :: c2 :: d2 :: r3 =>
              match hex4Val a2 b2 c2 d2 with
              | some m =>
                if (0xD800 ≤ n && n < 0xDC00) && (0xDC00 ≤ m && m < 0xE000) then
                  some (Char.ofNat (0x10000 + (n - 0xD800) * 0x400 + (m - 0xDC00)), r3)
                else none
              | none => none
            | _ => none
      | _ => none
    else if e = '"' then some ('"', r)
    else if e = '\\' then some ('\\', r)
    else if e = '/' then some ('/', r)
    else if e = 'b' then some (Char.ofNat 8, r)
    else if e = 'f' then some (Char.ofNat 12, r)
    else if e = 'n' then some (Char.ofNat 10, r)
    else if e = 'r' then some (Char.ofNat 13, r)
    else if e = 't' then some (Char.ofNat 9, r)
    else none

/-- The string-body loop, fuelled (each step consumes at least one input
character, so the input length bounds the steps). -/
def parseStrAux : Nat → List Char → Option (List Char × List Char)
  | 0, _ => none
  | _ + 1, [] => none
  | fuel + 1, c :: r =>
    if c = '"' then some ([], r)
    else if c = '\\' then
      match parseEscape r with
      | some p => (parseStrAux fuel p.2).map fun q => (p.1 :: q.1, q.2)
      | none => none
    else if c.toNat < 0x20 then none
    else (parseStrAux fuel r).map fun q => (c :: q.1, q.2)

/-- Reads a JSON string body after the opening quote; returns the decoded
characters and the input after the closing quote. -/
def parseStringBody (l : List Char) : Option (List Char × List Char) :=
  parseStrAux (l.length + 1) l

/-- An ASCII decimal digit. -/
def isDigitCh (c : Char) : Bool := 48 ≤ c.toNat && c.toNat ≤ 57

/-- Value of a big-endian digit string. -/
def digitsVal (l : List Char) : Nat :=
  l.foldl (fun a c => a * 10 + (c.toNat - 48)) 0

/-- Reads the digit run of a JSON integer literal (no leading zeros); a
following fraction or exponent would make a float, which is outside the
model. -/
def parseNumTail (neg : Bool) (s : List Char) : Option (PyVal × List Char) :=
  let ds := s.takeWhile isDigitCh
  let rest := s.dropWhile isDigitCh
  if ds = [] then none
  else if ds.head? = some '0' ∧ 1 < ds.length then none
  else
    match rest with
    | c :: _ =>
      if c = '.' || c = 'e' || c = 'E' then none
      else some (.int (if neg then -(digitsVal ds : Int) else (digitsVal ds : Int)), rest)
    | [] => some (.int (if neg then -(digitsVal ds : Int) else (digitsVal ds : Int)), [])

/-- Reads a JSON integer literal: optional minus sign, then digits. -/
def parseNumber : List Char → Option (PyVal × List Char)
  | [] => none
  | c :: r => if c = '-' then parseNumTail true r else parseNumTail false (c :: r)

mutual

def parseVal : Nat → List Char → Option (PyVal × List Char)
  | 0, _ => none
  | fuel + 1, s =>
    match skipWs s with
    | [] => none
    | c :: r =>
      if c = '"' then (parseStringBody r).map fun p => (.str (String.mk p.1), p.2)
      else if c = '{' then
        match skipWs r with
        | c1 :: r1 =>
          if c1 = '}' then some (.dict .nil, r1)
          else
            match parseObjBody fuel (c1 :: r1) with
            | some p => some (.dict p.1, p.2)
            | none => none
        | [] => none
      else if c = '[' then
        match skipWs r with
        | c1 :: r1 =>
          if c1 = ']' then some (.list .nil, r1)
          else
            match parseListBody fuel (c1 :: r1) with
            | some p => some (.list p.1, p.2)
            | none => none
        | [] => none
      else if c = 't' then
        match r with
        | 'r' :: 'u' :: 'e' :: r1 => some (.bool true, r1)
        | _ => none
      else if c = 'f' then
        match r with
        | 'a' :: 'l' :: 's' :: 'e' :: r1 => some (.bool false, r1)
        | _ => none
      else if c = 'n' then
        match r with
        | 'u' :: 'l' :: 'l' :: r1 => some (.pynone, r1)
        | _ => none
      else parseNumber (c :: r)

def parseListBody : Nat → List Char → Option (PyList × List Char)
  | 0, _ => none
  | fuel + 1, s =>
    match parseVal fuel s with
    | none => none
    | some (v, r) =>
      match skipWs r with
      | c :: r1 =>
        if c = ',' then
          match parseListBody fuel r1 with
          | some p => some (.cons v p.1, p.2)
          | none => none
        else if c = ']' then some (.cons v .nil, r1)
        else none
      | [] => none

def parseObjBody : Nat → List Char → Option (PyDict × List Char)
  | 0, _ => none
  | fuel + 1, s =>
    match skipWs s with
    | c :: r =>
      if c = '"' then
        match parseStringBody r with
        | some (kcs, r1) =>
          match skipWs r1 with
          | c1 :: r2 =>
            if c1 = ':' then
              match parseVal fuel r2 with
              | some (v, r3) =>
                match skipWs r3 with
                | c2 :: r4 =>
                  if c2 = ',' then
                    match parseObjBody fuel r4 with
                    | some p => some (.cons (.str (String.mk kcs)) v p.1, p.2)
                    | none => none
                  else if c2 = '}' then
                    some (.cons (.str (String.mk kcs)) v .nil, r4)
                  else none
                | [] => none
              | none => none
            else none
          | [] => none
        | none => none
      else none
    | [] => none

end

/-- `json.loads` on a character sequence: one value, then only trailing
whitespace. -/
def jsonLoads (s : List Char) : Option PyVal :=
  match parseVal (s.length + 1) s with
  | some (v, rest) => if skipWs rest = [] then some v else none
  | none => none

/-- `json.loads` on the serializer's UTF-8 output bytes (pure ASCII, so
byte values are character codes). -/
def jsonLoadsBytes (b : List Nat) : Option PyVal :=
  jsonLoads (b.map Char.ofNat)

/-! ## Value predicates and the claim's decoded form -/

mutual

/-- The documents the round-trip claim can hold for: no tuple anywhere
(`json` encodes a tuple as an array, which decodes as a list), and every
mapping key a text or byte string (other key types are stringified by
`json.dumps`). -/
def PyVal.docOk : PyVal → Bool
  | .tuple _ => false
  | .list l => l.docOkItems
  | .dict d => d.docOkEntries
  | _ => true

def PyList.docOkItems : PyList → Bool
  | .nil => true
  | .cons hd tl => hd.docOk && tl.docOkItems

def PyDict.docOkEntries : PyDict → Bool
  | .nil => true
  | .cons k v tl =>
    (match k with
     | .str _ => true
     | .bytes _ => true
     | _ => false) && v.docOk && tl.docOkEntries

end

mutual

/-- Shape of sanitized good documents: what the reader can reproduce. -/
def PyVal.loadable : PyVal → Bool
  | .tuple _ => false
  | .bytes _ => false
  | .list l => l.loadableItems
  | .dict d => d.loadableEntries
  | _ => true

def PyList.loadableItems : PyList → Bool
  | .nil => true
  | .cons hd tl => hd.loadable && tl.loadableItems

def PyDict.loadableEntries : PyDict → Bool
  | .nil => true
  | .cons k v tl =>
    (match k with
     | .str _ => true
     | _ => false) && v.loadable && tl.loadableEntries

end

mutual

/-- The claim's description of the decoded mapping: the sanitized document
with unsupported values mapped through the isoformat/repr fallback.
Stated from the claim's words, for comparison with what the code's
pipeline actually yields. -/
def PyVal.specNormal : PyVal → PyVal
  | .datetime iso => .str iso
  | .obj rep => .str rep
  | .list l => .list l.specNormalItems
  | .tuple l => .tuple l.specNormalItems
  | .dict d => .dict d.specNormalEntries
  | v => v

def PyList.specNormalItems : PyList → PyList
  | .nil => .nil
  | .cons hd tl => .cons hd.specNormal tl.specNormalItems

def PyDict.specNormalEntries : PyDict → PyDict
  | .nil => .nil
  | .cons k v tl => .cons k.specNormal v.specNormal tl.specNormalEntries

end

mutual

/-- Nesting depth: a fuel bound for the reader. -/
def PyVal.fdepth : PyVal → Nat
  | .list l => l.fdepthItems + 1
  | .tuple l => l.fdepthItems + 1
  | .dict d => d.fdepthEntries + 1
  | _ => 1

def PyList.fdepthItems : PyList → Nat
  | .nil => 1
  | .cons hd tl => max hd.fdepth tl.fdepthItems + 1

def PyDict.fdepthEntries : PyDict → Nat
  | .nil => 1
  | .cons _ v tl => max v.fdepth tl.fdepthEntries + 1

end

/-- The boundary after a printed integer: nothing that could extend the
numeric literal. -/
def numBoundary : List Char → Bool
  | [] => true
  | c :: _ => !(isDigitCh c) && !(c = '.') && !(c = 'e') && !(c = 'E')

mutual

/-- No whitespace character in any text content of the value.  Under this
condition every whitespace byte of the serialized output would have to be
inserted by the serializer itself, so a whitespace-free output witnesses
that nothing is inserted between tokens.  (Applied to sanitized values,
which hold no byte strings; a byte string counts as not whitespace-free.) -/
def PyVal.spaceFree : PyVal → Bool
  | .str s => s.data.all fun c => !(jsonWs c)
  | .datetime iso => iso.data.all fun c => !(jsonWs c)
  | .obj rep => rep.data.all fun c => !(jsonWs c)
  | .bytes _ => false
  | .list l => l.spaceFreeItems
  | .tuple l => l.spaceFreeItems
  | .dict d => d.spaceFreeEntries
  | _ => true

def PyList.spaceFreeItems : PyList → Bool
  | .nil => true
  | .cons hd tl => hd.spaceFree && tl.spaceFreeItems

def PyDict.spaceFreeEntries : PyDict → Bool
  | .nil => true
  | .cons k v tl => k.spaceFree && v.spaceFree && tl.spaceFreeEntries

end

/-- A sample document exercising every sanitizer and serializer branch
reachable from a well-formed GELF mapping: text with non-ASCII and
escaped characters, integers of both signs, booleans, `None`, a datetime,
a nested list, and byte-string keys and values. -/
def c5doc : PyVal :=
  .dict (.cons (.str "version") (.str "1.0")
    (.cons (.str "short_message") (.str "héllo \"w\"\n")
      (.cons (.str "level") (.int 6)
        (.cons (.str "timestamp") (.datetime "2024-01-02T03:04:05")
          (.cons (.str "_neg") (.int (-42))
            (.cons (.str "_flag") (.bool true)
              (.cons (.str "_none") .pynone
                (.cons (.str "_list") (.list (.cons (.int 1) (.cons (.str "x") .nil)))
                  (.cons (.bytes [104, 105]) (.bytes [0xE2, 0x9C, 0x93]) .nil)))))))))

/-- The serializer's output bytes for `c5doc`. -/
def c5bytes : List Nat := (BaseGELFHandler._message_to_pickle c5doc).getD []

/-- A whitespace-free sample document. -/
def c5tight : PyVal :=
  .dict (.cons (.str "level") (.int 6)
    (.cons (.str "_tags") (.list (.cons (.str "a") (.cons (.bool false) .nil))) .nil))

/-- The serializer's output bytes for `c5tight`. -/
def c5tightBytes : List Nat := (BaseGELFHandler._message_to_pickle c5tight).getD []

/-- A document holding a tuple value. -/
def c5tup : PyVal := .dict (.cons (.str "a") (.tuple .nil) .nil)

/-! ## Chunker lemmas -/

theorem packQ_length (n : Nat) : (packQ n).length = 8 := rfl

theorem pyCeilDiv_nil (b : Nat) : pyCeilDiv 0 b = 0 := by
  unfold pyCeilDiv
  cases b with
  | zero => rfl
  | succ b => exact Nat.div_eq_of_lt (by omega)

theorem pyCeilDiv_succ_step (L S : Nat) (hS : 0 < S) (hL : 0 < L) :
    pyCeilDiv L S = pyCeilDiv (L - S) S + 1 := by
  unfold pyCeilDiv
  by_cases h : L ≤ S
  · have h1 : L + S - 1 < 2 * S := by omega
    have h2 : 1 * S ≤ L + S - 1 := by omega
    have h3 : L - S = 0 := by omega
    rw [h3]
    rw [Nat.div_eq_of_lt (by omega : 0 + S - 1 < S)]
    have hone : (L + S - 1) / S = 1 := Nat.div_eq_of_lt_le (by omega) (by omega)
    omega
  · have h4 : L + S - 1 = (L - 1) + S := by omega
    have h5 : L - S + S - 1 = L - 1 := by omega
    rw [h4, h5, Nat.add_div_right _ hS]

theorem join_slices (S : Nat) (hS : 0 < S) :
    ∀ (n : Nat) (m : List Nat), m.length ≤ n →
      ((List.range (pyCeilDiv m.length S)).map fun k =>
        (m.drop (k * S)).take S).flatten = m := by
  intro n
  induction n with
  | zero =>
    intro m hm
    have hnil : m = [] := List.length_eq_zero.mp (by omega)
    subst hnil
    simp [pyCeilDiv_nil]
  | succ n ih =>
    intro m hm
    by_cases hmn : m = []
    · subst hmn; simp [pyCeilDiv_nil]
    · have hL : 0 < m.length := List.length_pos.mpr hmn
      rw [pyCeilDiv_succ_step _ _ hS hL, List.range_succ_eq_map]
      simp only [List.map_cons, List.map_map, List.flatten_cons, Nat.zero_mul,
        List.drop_zero]
      have htail :
          (List.range (pyCeilDiv (m.length - S) S)).map
              ((fun k => (m.drop (k * S)).take S) ∘ Nat.succ) =
          (List.range (pyCeilDiv ((m.drop S).length) S)).map
              (fun k => ((m.drop S).drop (k * S)).take S) := by
        rw [List.length_drop]
        refine List.map_congr_left fun k _ => ?_
        simp only [Function.comp_apply, List.drop_drop]
        congr 2
        rw [Nat.succ_mul, Nat.mul_comm]
        omega
      rw [htail, ih (m.drop S) (by simp; omega), List.take_append_drop]

theorem mapM_option_eq_map {α β : Type} (l : List α) (f : α → Option β)
    (g : α → β) (h : ∀ a ∈ l, f a = some (g a)) : l.mapM f = some (l.map g) := by
  induction l with
  | nil => rfl
  | cons a l ih =>
    simp only [List.mapM_cons, List.map_cons, h a (by simp),
      ih fun x hx => h x (by simp [hx]), Option.bind_eq_bind, Option.some_bind,
      Option.pure_def]

theorem enum_range_map {α : Type} (n : Nat) (f : Nat → α) :
    ((List.range n).map f).enum = (List.range n).map fun k => (k, f k) := by
  rw [List.enum_eq_zip_range, List.length_map, List.length_range]
  nth_rewrite 1 [show List.range n = (List.range n).map id from (List.map_id _).symm]
  rw [List.zip_map']
  simp

theorem iterChunks_eq_some (c : ChunkedGELF)
    (h255 : pyCeilDiv c.message.length c.size ≤ 255) :
    c.iterChunks =
      some ((List.range (pyCeilDiv c.message.length c.size)).map (chunkFrame c)) := by
  unfold ChunkedGELF.iterChunks ChunkedGELF.message_chunks
  rw [enum_range_map]
  rw [mapM_option_eq_map _ _
    (fun sc => [0x1e, 0x0f] ++ c.id ++ [sc.1] ++ c.pieces ++ sc.2) ?_]
  · rw [List.map_map]
    rfl
  · intro sc hsc
    simp only [List.mem_map, List.mem_range] at hsc
    obtain ⟨k, hk, rfl⟩ := hsc
    have hk255 : k ≤ 255 := by omega
    simp [ChunkedGELF.encode, packB, hk255]

theorem init_eq_some (message : List Nat) (size rand : Nat) (hS : 0 < size)
    (h255 : pyCeilDiv message.length size ≤ 255) :
    ChunkedGELF.init message size rand =
      some ⟨message, size, [pyCeilDiv message.length size], packQ rand⟩ := by
  simp [ChunkedGELF.init, packB, Nat.pos_iff_ne_zero.mp hS, h255]

theorem init_none_of_overflow (message : List Nat) (size rand : Nat)
    (h255 : 255 < pyCeilDiv message.length size) :
    ChunkedGELF.init message size rand = none := by
  unfold ChunkedGELF.init
  by_cases h0 : size = 0
  · simp [h0]
  · simp [h0, packB, Nat.not_le.mpr h255]

theorem init_shape (message : List Nat) (size rand : Nat) (c : ChunkedGELF)
    (h : ChunkedGELF.init message size rand = some c) :
    c.message = message ∧ c.size = size ∧ 0 < size ∧
      pyCeilDiv message.length size ≤ 255 ∧
      c.pieces = [pyCeilDiv message.length size] ∧ c.id = packQ rand := by
  unfold ChunkedGELF.init at h
  by_cases h0 : size = 0
  · simp [h0] at h
  · simp only [h0, if_false, packB] at h
    by_cases h255 : pyCeilDiv message.length size ≤ 255
    · simp only [h255, if_true, Option.map_some', Option.some.injEq] at h
      subst h
      exact ⟨rfl, rfl, Nat.pos_of_ne_zero h0, h255, rfl, rfl⟩
    · simp [h255] at h

theorem chunkFrame_prefix (message : List Nat) (size n rand k : Nat) :
    chunkFrame ⟨message, size, [n], packQ rand⟩ k =
      [0x1e, 0x0f] ++ packQ rand ++ [k] ++ [n] ++
        ((message.drop (k * size)).take size) := rfl

theorem chunkFrame_payload (message : List Nat) (size n rand k : Nat) :
    (chunkFrame ⟨message, size, [n], packQ rand⟩ k).drop 12 =
      (message.drop (k * size)).take size := rfl

theorem chunkFrame_total (message : List Nat) (size n rand k : Nat) :
    ((chunkFrame ⟨message, size, [n], packQ rand⟩ k).drop 11).take 1 = [n] := rfl

theorem chunkFrame_id (message : List Nat) (size n rand k : Nat) :
    ((chunkFrame ⟨message, size, [n], packQ rand⟩ k).drop 2).take 8 =
      packQ rand := rfl

/-! ## Claim theorems: chunking -/

/-- C1 counterexample.  A payload of length 256 with chunk size 1 satisfies
the claim's hypothesis `L ≥ S`, and `ceil(L/S) = 256`; but
`ChunkedGELF.__init__` raises `struct.error` inside
`struct.pack('B', 256)`, so iterating yields no chunks at all instead of
the claimed 256 chunks with a shared total-count byte. -/
theorem chunker_c1_counterexample :
    pyCeilDiv (List.replicate 256 0).length 1 = 256 ∧
    ChunkedGELF.init (List.replicate 256 0) 1 0 = none := by
  constructor
  · decide
  · decide

/-- C1 (amended): for a payload of byte-length `L` and chunk size `S` with
`L ≥ S ≥ 1` and `ceil(L/S) ≤ 255`, iterating the chunker yields exactly
`ceil(L/S)` chunks; concatenating the payload slices of the chunks in
yielded order equals the original payload; every chunk carries the same
1-byte total-count field equal to `ceil(L/S)`; and every chunk of the same
chunker instance carries the same 8-byte message id. -/
theorem chunker_c1 (message : List Nat) (size rand : Nat)
    (hS : 1 ≤ size) (_hLS : size ≤ message.length)
    (h255 : pyCeilDiv message.length size ≤ 255) :
    ∃ c cs, ChunkedGELF.init message size rand = some c ∧
      c.iterChunks = some cs ∧
      cs.length = pyCeilDiv message.length size ∧
      (cs.map fun ch => ch.drop 12).flatten = message ∧
      (∀ ch ∈ cs, (ch.drop 11).take 1 = [pyCeilDiv message.length size] ∧
        (ch.drop 2).take 8 = packQ rand) := by
  refine ⟨⟨message, size, [pyCeilDiv message.length size], packQ rand⟩, _,
    init_eq_some message size rand hS h255, iterChunks_eq_some _ h255, ?_, ?_, ?_⟩
  · simp
  · rw [List.map_map]
    have hmap : (List.range (pyCeilDiv message.length size)).map
        ((fun ch => ch.drop 12) ∘
          chunkFrame ⟨message, size, [pyCeilDiv message.length size], packQ rand⟩) =
        (List.range (pyCeilDiv message.length size)).map
          (fun k => (message.drop (k * size)).take size) :=
      List.map_congr_left fun k _ => chunkFrame_payload _ _ _ _ _
    rw [hmap]
    exact join_slices size hS message.length message le_rfl
  · intro ch hch
    simp only [List.mem_map, List.mem_range] at hch
    obtain ⟨k, _, rfl⟩ := hch
    exact ⟨chunkFrame_total _ _ _ _ _, chunkFrame_id _ _ _ _ _⟩

/-- C1 witness: payload `[1,2,3]` with chunk size 2. -/
theorem chunker_c1_witness :
    1 ≤ 2 ∧ 2 ≤ 3 ∧ pyCeilDiv 3 2 ≤ 255 ∧
    (∃ c cs, ChunkedGELF.init [1, 2, 3] 2 5 = some c ∧
      c.iterChunks = some cs ∧
      cs.length = pyCeilDiv ([1, 2, 3] : List Nat).length 2 ∧
      (cs.map fun ch => ch.drop 12).flatten = [1, 2, 3] ∧
      (∀ ch ∈ cs, (ch.drop 11).take 1 = [pyCeilDiv ([1, 2, 3] : List Nat).length 2] ∧
        (ch.drop 2).take 8 = packQ 5)) :=
  ⟨by decide, by decide, by decide,
    chunker_c1 [1, 2, 3] 2 5 (by decide) (by decide) (by decide)⟩

/-- C2: a UDP payload is sent as one unchunked datagram iff its length is
strictly below the configured chunk size; length exactly the chunk size is
chunked, length one below is one datagram carrying the payload verbatim. -/
theorem udp_send_c2 (chunk_size rand : Nat) (s : List Nat) :
    (GELFUDPHandler.send chunk_size rand s = .single s ↔ s.length < chunk_size) ∧
    (s.length = chunk_size →
      ∀ d, GELFUDPHandler.send chunk_size rand s ≠ UdpSend.single d) ∧
    (1 ≤ chunk_size → s.length + 1 = chunk_size →
      GELFUDPHandler.send chunk_size rand s = .single s) := by
  unfold GELFUDPHandler.send
  by_cases h : s.length < chunk_size
  · exact ⟨by simp [h], fun he d => (by omega : False).elim, fun _ _ => by simp [h]⟩
  · exact ⟨by simp [h], fun _ d => by simp [h], fun h1 h2 => (by omega : False).elim⟩

/-- C2 witness: chunk size 3 with payloads of length 2 and 3. -/
theorem udp_send_c2_witness :
    GELFUDPHandler.send 3 0 [7, 7] = .single [7, 7] ∧
    GELFUDPHandler.send 3 0 [7, 7, 7] ≠ UdpSend.single [7, 7, 7] :=
  ⟨(udp_send_c2 3 0 [7, 7]).2.2 (by decide) (by decide),
    (udp_send_c2 3 0 [7, 7, 7]).2.1 (by decide) [7, 7, 7]⟩

/-- C3: every chunk emitted by a constructed chunker is exactly the two
magic bytes `0x1e 0x0f`, the 8-byte message id, a 1-byte sequence index,
the 1-byte total count, then the chunk's payload slice; and the k-th
emitted chunk carries sequence index k (0-based, consecutive, ascending). -/
theorem chunker_c3 (message : List Nat) (size rand : Nat) (c : ChunkedGELF)
    (h : ChunkedGELF.init message size rand = some c) :
    ∃ cs, c.iterChunks = some cs ∧
      ∀ k, (hk : k < cs.length) →
        cs.get ⟨k, hk⟩ =
          [0x1e, 0x0f] ++ packQ rand ++ [k] ++ [pyCeilDiv message.length size] ++
            ((message.drop (k * size)).take size) := by
  obtain ⟨hm, hs, hS, h255, hp, hi⟩ := init_shape _ _ _ _ h
  have hc : c = ⟨message, size, [pyCeilDiv message.length size], packQ rand⟩ := by
    cases c
    simp_all
  subst hc
  refine ⟨_, iterChunks_eq_some _ h255, ?_⟩
  intro k hk
  simp only [List.get_eq_getElem, List.getElem_map, List.getElem_range]
  exact chunkFrame_prefix _ _ _ _ _

/-- C3 witness: payload `[1,2,3]` with chunk size 2. -/
theorem chunker_c3_witness :
    ∃ cs, (ChunkedGELF.iterChunks ⟨[1, 2, 3], 2, [2], packQ 5⟩) = some cs ∧
      ∀ k, (hk : k < cs.length) →
        cs.get ⟨k, hk⟩ =
          [0x1e, 0x0f] ++ packQ 5 ++ [k] ++ [pyCeilDiv ([1, 2, 3] : List Nat).length 2] ++
            (([1, 2, 3] : List Nat).drop (k * 2)).take 2 :=
  chunker_c3 [1, 2, 3] 2 5 ⟨[1, 2, 3], 2, [2], packQ 5⟩ (by decide)

/-- C8 counterexample.  With 256 required chunks, the code does not emit a
truncated total-count byte: `struct.pack('B', 256)` raises `struct.error`
during construction, so no chunk set (malformed or otherwise) is produced. -/
theorem chunker_c8_counterexample :
    255 < pyCeilDiv (List.replicate 256 0).length 1 ∧
    ChunkedGELF.init (List.replicate 256 0) 1 7 = none := by
  constructor
  · decide
  · decide

/-- C8 (amended): when the required chunk count exceeds the 1-byte range,
nothing guards the overflow; `struct.pack('B', ...)` raises `struct.error`
during construction, so the chunker fails and produces no chunk set (rather
than emitting chunks with a truncated total-count byte). -/
theorem chunker_c8 (message : List Nat) (size rand : Nat)
    (h255 : 255 < pyCeilDiv message.length size) :
    ChunkedGELF.init message size rand = none :=
  init_none_of_overflow message size rand h255

/-- C8 witness: 256 one-byte chunks required. -/
theorem chunker_c8_witness :
    255 < pyCeilDiv (List.replicate 256 0).length 1 ∧
    ChunkedGELF.init (List.replicate 256 0) 1 3 = none :=
  ⟨by decide, chunker_c8 (List.replicate 256 0) 1 3 (by decide)⟩

/-- C9 counterexample.  `__iter__` is a generator function over fields that
are never mutated, so a second `for` loop over the same instance runs the
identical computation: it reproduces the chunk sequence exactly (here a
concrete two-chunk sequence), contradicting "a second iteration of the
same instance does not reproduce the chunk sequence". -/
theorem chunker_c9_counterexample :
    ((ChunkedGELF.init [1, 2, 3] 2 5).getD default).secondConsumption =
      ((ChunkedGELF.init [1, 2, 3] 2 5).getD default).firstConsumption ∧
    ((ChunkedGELF.init [1, 2, 3] 2 5).getD default).firstConsumption =
      some [[30, 15, 5, 0, 0, 0, 0, 0, 0, 0, 0, 2, 1, 2],
            [30, 15, 5, 0, 0, 0, 0, 0, 0, 0, 1, 2, 3]] := by
  constructor
  · rfl
  · decide

/-- C9 (amended): chunks are produced in ascending sequence order and the
sequence is finite (`ceil(L/S)` chunks); but the instance is re-iterable:
each `for` loop calls `__iter__` afresh on the unmutated fields, so a
second iteration of the same instance reproduces the same chunk sequence
(including the same message id). -/
theorem chunker_c9 (message : List Nat) (size rand : Nat) (c : ChunkedGELF)
    (h : ChunkedGELF.init message size rand = some c) :
    c.secondConsumption = c.firstConsumption ∧
    ∃ cs, c.firstConsumption = some cs ∧
      cs.length = pyCeilDiv message.length size := by
  obtain ⟨hm, hs, hS, h255, hp, hi⟩ := init_shape _ _ _ _ h
  refine ⟨rfl, (List.range (pyCeilDiv c.message.length c.size)).map (chunkFrame c),
    iterChunks_eq_some c (by rw [hm, hs]; exact h255), ?_⟩
  simp [hm, hs]

/-- C9 witness: the chunker for payload `[1,2,3]` with chunk size 2. -/
theorem chunker_c9_witness :
    (ChunkedGELF.secondConsumption ⟨[1, 2, 3], 2, [2], packQ 5⟩ =
      ChunkedGELF.firstConsumption ⟨[1, 2, 3], 2, [2], packQ 5⟩) ∧
    ∃ cs, ChunkedGELF.firstConsumption ⟨[1, 2, 3], 2, [2], packQ 5⟩ = some cs ∧
      cs.length = pyCeilDiv ([1, 2, 3] : List Nat).length 2 :=
  chunker_c9 [1, 2, 3] 2 5 ⟨[1, 2, 3], 2, [2], packQ 5⟩ (by decide)

/-! ## Character and JSON-string lemmas -/

theorem char_toNat_ofNat (n : Nat) (h : n.isValidChar) :
    (Char.ofNat n).toNat = n := by
  unfold Char.ofNat Char.ofNatAux Char.toNat
  rw [dif_pos h]
  simp [UInt32.toNat]

theorem char_valid_toNat (c : Char) :
    c.toNat < 0xD800 ∨ (0xDFFF < c.toNat ∧ c.toNat < 0x110000) := c.valid

theorem char_ne_of_toNat {a b : Char} (h : a.toNat ≠ b.toNat) : a ≠ b :=
  fun he => h (he ▸ rfl)

theorem hexVal_hexDigitChar :
    ∀ d, d < 16 → hexVal (hexDigitChar d) = some d := by decide

theorem hex4Val_hex4 (n : Nat) (hn : n < 0x10000) :
    hex4Val (hexDigitChar (n / 4096 % 16)) (hexDigitChar (n / 256 % 16))
      (hexDigitChar (n / 16 % 16)) (hexDigitChar (n % 16)) = some n := by
  rw [hex4Val, hexVal_hexDigitChar _ (Nat.mod_lt _ (by omega)),
    hexVal_hexDigitChar _ (Nat.mod_lt _ (by omega)),
    hexVal_hexDigitChar _ (Nat.mod_lt _ (by omega)),
    hexVal_hexDigitChar _ (Nat.mod_lt _ (by omega))]
  exact congrArg some (by omega)

theorem parseEscape_u (n : Nat) (hn : n < 0x10000)
    (hsur : n < 0xD800 ∨ 0xE000 ≤ n) (t : List Char) :
    parseEscape ('u' :: (hex4 n ++ t)) = some (Char.ofNat n, t) := by
  have hsurb : (decide (n < 0xD800) || decide (0xE000 ≤ n)) = true := by
    rcases hsur with h | h <;> simp [h]
  simp only [hex4, List.cons_append, List.nil_append]
  simp only [parseEscape, if_pos rfl]
  rw [hex4Val_hex4 _ hn]
  simp [hsurb]

theorem parseEscape_u_pair (n m : Nat) (hn : 0xD800 ≤ n) (hn2 : n < 0xDC00)
    (hm : 0xDC00 ≤ m) (hm2 : m < 0xE000) (t : List Char) :
    parseEscape ('u' :: (hex4 n ++ '\\' :: 'u' :: (hex4 m ++ t))) =
      some (Char.ofNat (0x10000 + (n - 0xD800) * 0x400 + (m - 0xDC00)), t) := by
  have hsurb : (decide (n < 0xD800) || decide (0xE000 ≤ n)) = false := by
    simp only [Bool.or_eq_false_iff, decide_eq_false_iff_not]
    omega
  have hrange : ((decide (0xD800 ≤ n) && decide (n < 0xDC00)) &&
      (decide (0xDC00 ≤ m) && decide (m < 0xE000))) = true := by
    simp only [Bool.and_eq_true, decide_eq_true_eq]
    omega
  simp only [hex4, List.cons_append, List.nil_append]
  simp only [parseEscape, if_pos rfl]
  rw [hex4Val_hex4 _ (by omega)]
  simp only [hsurb, Bool.false_eq_true, if_false]
  rw [hex4Val_hex4 _ (by omega)]
  simp [hrange]

theorem parseStrAux_backslash (f : Nat) (r : List Char) :
    parseStrAux (f + 1) ('\\' :: r) =
      match parseEscape r with
      | some p => (parseStrAux f p.2).map fun q => (p.1 :: q.1, q.2)
      | none => none := by
  simp [parseStrAux]

theorem parseStrAux_encode (cs : List Char) :
    ∀ (fuel : Nat) (rest : List Char), cs.length < fuel →
    parseStrAux fuel ((cs.map encodeJsonChar).flatten ++ ('"' :: rest)) =
      some (cs, rest) := by
  induction cs with
  | nil =>
    intro fuel rest h
    obtain ⟨f, rfl⟩ : ∃ f, fuel = f + 1 := ⟨fuel - 1, by omega⟩
    simp [parseStrAux]
  | cons c cs ih =>
    intro fuel rest h
    obtain ⟨f, rfl⟩ : ∃ f, fuel = f + 1 := ⟨fuel - 1, by omega⟩
    have hf : cs.length < f := by
      simp only [List.length_cons] at h
      omega
    have ihf := ih f rest hf
    rw [List.map_cons, List.flatten_cons, List.append_assoc]
    by_cases h1 : c = '"'
    · subst h1; simp [encodeJsonChar, parseStrAux, parseEscape, ihf]
    by_cases h2 : c = '\\'
    · subst h2; simp [encodeJsonChar, parseStrAux, parseEscape, ihf]
    by_cases h3 : c = Char.ofNat 8
    · subst h3; simp [encodeJsonChar, parseStrAux, parseEscape, ihf]
    by_cases h4 : c = Char.ofNat 9
    · subst h4; simp [encodeJsonChar, parseStrAux, parseEscape, ihf]
    by_cases h5 : c = Char.ofNat 10
    · subst h5; simp [encodeJsonChar, parseStrAux, parseEscape, ihf]
    by_cases h6 : c = Char.ofNat 12
    · subst h6; simp [encodeJsonChar, parseStrAux, parseEscape, ihf]
    by_cases h7 : c = Char.ofNat 13
    · subst h7; simp [encodeJsonChar, parseStrAux, parseEscape, ihf]
    by_cases h8 : (0x20 ≤ c.toNat && c.toNat ≤ 0x7E) = true
    · have hlt : ¬ c.toNat < 0x20 := by
        simp only [Bool.and_eq_true, decide_eq_true_eq] at h8
        omega
      have henc : encodeJsonChar c = [c] := by
        simp [encodeJsonChar, h1, h2, h3, h4, h5, h6, h7, h8]
      rw [henc]
      simp [parseStrAux, h1, h2, hlt, ihf]
    by_cases h9 : c.toNat < 0x10000
    · have hval := char_valid_toNat c
      have henc : encodeJsonChar c = '\\' :: 'u' :: hex4 c.toNat := by
        simp [encodeJsonChar, h1, h2, h3, h4, h5, h6, h7, h8, h9]
      rw [henc]
      simp only [List.cons_append]
      rw [parseStrAux_backslash, parseEscape_u c.toNat h9 (by omega) _]
      simp [ihf, Char.ofNat_toNat]
    · have hval := char_valid_toNat c
      have hmod := Nat.mod_lt (c.toNat - 0x10000) (show 0 < 0x400 by omega)
      have hdiv : (c.toNat - 0x10000) / 0x400 < 0x400 :=
        Nat.div_lt_of_lt_mul (by omega)
      have henc : encodeJsonChar c =
          ('\\' :: 'u' :: hex4 (0xD800 + (c.toNat - 0x10000) / 0x400)) ++
          ('\\' :: 'u' :: hex4 (0xDC00 + (c.toNat - 0x10000) % 0x400)) := by
        simp [encodeJsonChar, h1, h2, h3, h4, h5, h6, h7, h8, h9]
      have hcomb : 0x10000 +
          (0xD800 + (c.toNat - 0x10000) / 0x400 - 0xD800) * 0x400 +
          (0xDC00 + (c.toNat - 0x10000) % 0x400 - 0xDC00) = c.toNat := by
        have := Nat.div_add_mod (c.toNat - 0x10000) 0x400
        omega
      rw [henc]
      simp only [List.cons_append, List.append_assoc]
      rw [parseStrAux_backslash,
        parseEscape_u_pair _ _ (by omega) (by omega) (by omega) (by omega) _]
      rw [hcomb, Char.ofNat_toNat]
      simp [ihf]

theorem encodeJsonChar_ne_nil (c : Char) : encodeJsonChar c ≠ [] := by
  unfold encodeJsonChar
  repeat' split
  all_goals simp

theorem parseStringBody_append (cs rest : List Char) :
    parseStringBody ((cs.map encodeJsonChar).flatten ++ ('"' :: rest)) =
      some (cs, rest) := by
  unfold parseStringBody
  apply parseStrAux_encode
  have hlen : cs.length ≤ ((cs.map encodeJsonChar).flatten).length := by
    induction cs with
    | nil => simp
    | cons c cs ih =>
      rw [List.map_cons, List.flatten_cons, List.length_append, List.length_cons]
      have : 1 ≤ (encodeJsonChar c).length := by
        rcases he : encodeJsonChar c with _ | ⟨x, xs⟩
        · exact absurd he (encodeJsonChar_ne_nil c)
        · simp
      omega
  simp only [List.length_append, List.length_cons]
  omega

/-! ## Number-literal lemmas -/

theorem digit_char_toNat (d : Nat) (hd : d < 10) :
    (Char.ofNat (48 + d)).toNat = 48 + d :=
  char_toNat_ofNat _ (Or.inl (by omega))

theorem natReprAux_zero (fuel : Nat) : natReprAux fuel 0 = [] := by
  cases fuel <;> simp [natReprAux]

theorem natReprAux_digits :
    ∀ (fuel n : Nat), ∀ c ∈ natReprAux fuel n, isDigitCh c = true := by
  intro fuel
  induction fuel with
  | zero => intro n c hc; simp [natReprAux] at hc
  | succ fuel ih =>
    intro n c hc
    by_cases h0 : n = 0
    · simp [natReprAux, h0] at hc
    · rw [natReprAux, if_neg h0] at hc
      rcases List.mem_append.mp hc with h | h
      · exact ih _ c h
      · have hce : c = Char.ofNat (48 + n % 10) := by simpa using h
        subst hce
        have hlt : n % 10 < 10 := Nat.mod_lt _ (by omega)
        simp only [isDigitCh, digit_char_toNat _ hlt, Bool.and_eq_true,
          decide_eq_true_eq]
        omega

theorem natReprAux_head :
    ∀ (fuel n : Nat), 0 < n → n ≤ fuel →
      ∃ c cs, natReprAux fuel n = c :: cs ∧ 49 ≤ c.toNat ∧ c.toNat ≤ 57 := by
  intro fuel
  induction fuel with
  | zero => intro n h1 h2; omega
  | succ fuel ih =>
    intro n h1 h2
    rw [natReprAux, if_neg (by omega)]
    by_cases h10 : n / 10 = 0
    · rw [h10, natReprAux_zero, List.nil_append]
      have hmod : n % 10 = n := Nat.mod_eq_of_lt (by omega)
      have hlt : n % 10 < 10 := by omega
      exact ⟨_, _, rfl, by rw [digit_char_toNat _ hlt]; omega,
        by rw [digit_char_toNat _ hlt]; omega⟩
    · obtain ⟨c, cs, heq, hc1, hc2⟩ := ih (n / 10) (by omega) (by omega)
      rw [heq]
      exact ⟨c, cs ++ [Char.ofNat (48 + n % 10)], rfl, hc1, hc2⟩

theorem digitsVal_append (l : List Char) (d : Char) :
    digitsVal (l ++ [d]) = digitsVal l * 10 + (d.toNat - 48) := by
  unfold digitsVal
  rw [List.foldl_append]
  rfl

theorem natReprAux_val :
    ∀ (fuel n : Nat), n ≤ fuel → digitsVal (natReprAux fuel n) = n := by
  intro fuel
  induction fuel with
  | zero =>
    intro n h
    have hn : n = 0 := by omega
    subst hn
    simp [natReprAux_zero, digitsVal]
  | succ fuel ih =>
    intro n h
    by_cases h0 : n = 0
    · subst h0; simp [natReprAux_zero, digitsVal]
    · rw [natReprAux, if_neg h0, digitsVal_append, ih (n / 10) (by omega),
        digit_char_toNat _ (Nat.mod_lt _ (by omega))]
      omega

theorem natRepr_digits (n : Nat) : ∀ c ∈ natRepr n, isDigitCh c = true := by
  unfold natRepr
  by_cases h0 : n = 0
  · rw [if_pos h0]
    intro c hc
    have hce : c = '0' := by simpa using hc
    subst hce
    decide
  · rw [if_neg h0]
    exact natReprAux_digits n n

theorem natRepr_cons (n : Nat) :
    ∃ c cs, natRepr n = c :: cs ∧ 48 ≤ c.toNat ∧ c.toNat ≤ 57 ∧
      (n ≠ 0 → 49 ≤ c.toNat) ∧ (n = 0 → cs = []) := by
  unfold natRepr
  by_cases h0 : n = 0
  · refine ⟨'0', [], by rw [if_pos h0], by decide, by decide,
      fun hx => absurd h0 hx, fun _ => rfl⟩
  · obtain ⟨c, cs, heq, hc1, hc2⟩ := natReprAux_head n n (by omega) le_rfl
    exact ⟨c, cs, by rw [if_neg h0]; exact heq, by omega, hc2,
      fun _ => hc1, fun hx => absurd hx h0⟩

theorem digitsVal_natRepr (n : Nat) : digitsVal (natRepr n) = n := by
  unfold natRepr
  by_cases h0 : n = 0
  · subst h0; rfl
  · rw [if_neg h0]
    exact natReprAux_val n n le_rfl

theorem takeWhile_digits_append (ds rest : List Char)
    (hds : ∀ c ∈ ds, isDigitCh c = true)
    (hrest : numBoundary rest = true) :
    (ds ++ rest).takeWhile isDigitCh = ds ∧
    (ds ++ rest).dropWhile isDigitCh = rest := by
  induction ds with
  | nil =>
    rcases rest with _ | ⟨c, r⟩
    · exact ⟨rfl, rfl⟩
    · simp only [numBoundary, Bool.and_eq_true, Bool.not_eq_true'] at hrest
      simp [List.takeWhile_cons, List.dropWhile_cons, hrest.1.1.1]
  | cons d ds ih =>
    have hd := hds d (List.mem_cons_self d ds)
    obtain ⟨h1, h2⟩ := ih fun c hc => hds c (List.mem_cons_of_mem d hc)
    simp [List.takeWhile_cons, List.dropWhile_cons, hd, h1, h2]

theorem parseNumTail_natRepr (neg : Bool) (m : Nat) (rest : List Char)
    (hb : numBoundary rest = true) :
    parseNumTail neg (natRepr m ++ rest) =
      some (.int (if neg then -(m : Int) else (m : Int)), rest) := by
  obtain ⟨hts, hds⟩ := takeWhile_digits_append (natRepr m) rest (natRepr_digits m) hb
  unfold parseNumTail
  simp only [hts, hds]
  obtain ⟨c, cs, heq, hc48, hc57, hcnz, hcz⟩ := natRepr_cons m
  have hne : ¬ natRepr m = [] := by rw [heq]; simp
  rw [if_neg hne]
  have hlead : ¬ ((natRepr m).head? = some '0' ∧ 1 < (natRepr m).length) := by
    rintro ⟨hh, hl⟩
    rw [heq] at hh hl
    simp only [List.head?_cons, Option.some.injEq] at hh
    by_cases hm0 : m = 0
    · rw [hcz hm0] at hl
      simp at hl
    · have h49 := hcnz hm0
      rw [hh] at h49
      revert h49
      decide
  rw [if_neg hlead, digitsVal_natRepr]
  rcases rest with _ | ⟨c', r'⟩
  · rfl
  · simp only [numBoundary, Bool.and_eq_true, Bool.not_eq_true',
      decide_eq_false_iff_not] at hb
    obtain ⟨⟨⟨hd0, h1⟩, h2⟩, h3⟩ := hb
    have hor : (c' = '.' || c' = 'e' || c' = 'E') = false := by
      simp [h1, h2, h3]
    dsimp only
    rw [hor]
    rfl

theorem isDigitCh_ne_minus (c : Char) (h : isDigitCh c = true) : ¬ c = '-' := by
  intro he
  subst he
  simp [isDigitCh] at h

theorem parseNumber_intRepr (n : Int) (rest : List Char)
    (hb : numBoundary rest = true) :
    parseNumber (intRepr n ++ rest) = some (.int n, rest) := by
  unfold intRepr
  by_cases hneg : n < 0
  · rw [if_pos hneg, List.cons_append]
    simp only [parseNumber]
    rw [if_pos trivial, parseNumTail_natRepr true n.natAbs rest hb]
    have hval : (if (true : Bool) then -(n.natAbs : Int) else (n.natAbs : Int)) = n := by
      rw [if_pos rfl]
      omega
    rw [hval]
  · rw [if_neg hneg]
    obtain ⟨c, cs, heq, hc48, hc57, _, _⟩ := natRepr_cons n.toNat
    have hdig : isDigitCh c = true := by
      simp only [isDigitCh, Bool.and_eq_true, decide_eq_true_eq]
      omega
    rw [heq, List.cons_append]
    simp only [parseNumber]
    rw [if_neg (isDigitCh_ne_minus c hdig), ← List.cons_append, ← heq,
      parseNumTail_natRepr false n.toNat rest hb]
    have hval : (if (false : Bool) then -(n.toNat : Int) else (n.toNat : Int)) = n := by
      rw [if_neg (by simp)]
      omega
    rw [hval]

/-! ## Dump-shape lemmas -/

theorem stringMk_data (s : String) : String.mk s.data = s := rfl

theorem skipWs_cons_of_not (c : Char) (r : List Char) (h : jsonWs c = false) :
    skipWs (c :: r) = c :: r := by
  simp [skipWs, h]

theorem encodeJsonString_cons (s : String) :
    encodeJsonString s = '"' :: ((s.data.map encodeJsonChar).flatten ++ ['"']) := rfl

/-- Head of a serialized value: never whitespace, never a closing
delimiter or separator. -/
theorem dumps_head (v : PyVal) (w : List Char) (h : PyVal.dumps v = some w) :
    ∃ c w', w = c :: w' ∧ jsonWs c = false ∧ ¬ c = ']' ∧ ¬ c = '}' ∧
      ¬ c = ',' ∧ ¬ c = ':' := by
  cases v with
  | str s =>
    rw [PyVal.dumps, Option.some.injEq] at h
    exact ⟨'"', _, by rw [← h, encodeJsonString_cons], by decide, by decide,
      by decide, by decide, by decide⟩
  | bytes b =>
    rw [PyVal.dumps, Option.some.injEq] at h
    exact ⟨'"', _, by rw [← h, encodeJsonString_cons], by decide, by decide,
      by decide, by decide, by decide⟩
  | datetime iso =>
    rw [PyVal.dumps, Option.some.injEq] at h
    exact ⟨'"', _, by rw [← h, encodeJsonString_cons], by decide, by decide,
      by decide, by decide, by decide⟩
  | obj rep =>
    rw [PyVal.dumps, Option.some.injEq] at h
    exact ⟨'"', _, by rw [← h, encodeJsonString_cons], by decide, by decide,
      by decide, by decide, by decide⟩
  | int n =>
    rw [PyVal.dumps, Option.some.injEq] at h
    subst h
    unfold intRepr
    by_cases hneg : n < 0
    · rw [if_pos hneg]
      exact ⟨'-', _, rfl, by decide, by decide, by decide, by decide, by decide⟩
    · rw [if_neg hneg]
      obtain ⟨c, cs, heq, h48, h57, _, _⟩ := natRepr_cons n.toNat
      refine ⟨c, cs, heq, ?_, ?_, ?_, ?_, ?_⟩
      · simp only [jsonWs, Bool.or_eq_false_iff, decide_eq_false_iff_not]
        refine ⟨⟨⟨?_, ?_⟩, ?_⟩, ?_⟩ <;>
          (intro he; rw [he] at h48; exact absurd h48 (by decide))
      · intro he; rw [he] at h57; exact absurd h57 (by decide)
      · intro he; rw [he] at h57; exact absurd h57 (by decide)
      · intro he; rw [he] at h48; exact absurd h48 (by decide)
      · intro he; rw [he] at h57; exact absurd h57 (by decide)
  | bool b =>
    cases b <;> rw [PyVal.dumps, Option.some.injEq] at h <;> subst h
    · exact ⟨'f', _, rfl, by decide, by decide, by decide, by decide, by decide⟩
    · exact ⟨'t', _, rfl, by decide, by decide, by decide, by decide, by decide⟩
  | pynone =>
    rw [PyVal.dumps, Option.some.injEq] at h
    subst h
    exact ⟨'n', _, rfl, by decide, by decide, by decide, by decide, by decide⟩
  | list l =>
    rw [PyVal.dumps] at h
    rcases hl : l.dumpsItems with _ | parts <;> rw [hl] at h
    · cases h
    · rw [Option.some.injEq] at h
      exact ⟨'[', _, h.symm, by decide, by decide, by decide, by decide, by decide⟩
  | tuple l =>
    rw [PyVal.dumps] at h
    rcases hl : l.dumpsItems with _ | parts <;> rw [hl] at h
    · cases h
    · rw [Option.some.injEq] at h
      exact ⟨'[', _, h.symm, by decide, by decide, by decide, by decide, by decide⟩
  | dict d =>
    rw [PyVal.dumps] at h
    rcases hd : d.dumpsEntries with _ | parts <;> rw [hd] at h
    · cases h
    · rw [Option.some.injEq] at h
      exact ⟨'{', _, h.symm, by decide, by decide, by decide, by decide, by decide⟩

mutual

theorem dumps_fdepth (v : PyVal) :
    ∀ w : List Char, PyVal.dumps v = some w → PyVal.fdepth v ≤ w.length := by
  intro w h
  cases v with
  | list l =>
    rw [PyVal.dumps] at h
    rcases hl : l.dumpsItems with _ | parts <;> rw [hl] at h
    · cases h
    · rw [Option.some.injEq] at h
      subst h
      have := dumpsItems_fdepth l parts hl
      simp only [PyVal.fdepth, List.length_cons, List.length_append,
        List.length_singleton]
      omega
  | tuple l =>
    rw [PyVal.dumps] at h
    rcases hl : l.dumpsItems with _ | parts <;> rw [hl] at h
    · cases h
    · rw [Option.some.injEq] at h
      subst h
      have := dumpsItems_fdepth l parts hl
      simp only [PyVal.fdepth, List.length_cons, List.length_append,
        List.length_singleton]
      omega
  | dict d =>
    rw [PyVal.dumps] at h
    rcases hd : d.dumpsEntries with _ | parts <;> rw [hd] at h
    · cases h
    · rw [Option.some.injEq] at h
      subst h
      have := dumpsEntries_fdepth d parts hd
      simp only [PyVal.fdepth, List.length_cons, List.length_append,
        List.length_singleton]
      omega
  | str s =>
    obtain ⟨c, w', he, -⟩ := dumps_head _ _ h
    subst he
    simp [PyVal.fdepth]
  | bytes b =>
    obtain ⟨c, w', he, -⟩ := dumps_head _ _ h
    subst he
    simp [PyVal.fdepth]
  | int n =>
    obtain ⟨c, w', he, -⟩ := dumps_head _ _ h
    subst he
    simp [PyVal.fdepth]
  | bool b =>
    obtain ⟨c, w', he, -⟩ := dumps_head _ _ h
    subst he
    simp [PyVal.fdepth]
  | pynone =>
    obtain ⟨c, w', he, -⟩ := dumps_head _ _ h
    subst he
    simp [PyVal.fdepth]
  | datetime iso =>
    obtain ⟨c, w', he, -⟩ := dumps_head _ _ h
    subst he
    simp [PyVal.fdepth]
  | obj rep =>
    obtain ⟨c, w', he, -⟩ := dumps_head _ _ h
    subst he
    simp [PyVal.fdepth]

theorem dumpsItems_fdepth (l : PyList) :
    ∀ parts : List (List Char), PyList.dumpsItems l = some parts →
      PyList.fdepthItems l ≤ (joinParts parts).length + 1 := by
  intro parts h
  cases l with
  | nil =>
    rw [PyList.dumpsItems, Option.some.injEq] at h
    subst h
    simp [PyList.fdepthItems, joinParts]
  | cons hd tl =>
    rw [PyList.dumpsItems] at h
    rcases hh : PyVal.dumps hd with _ | hw <;> rw [hh] at h
    · cases h
    rcases ht : PyList.dumpsItems tl with _ | tparts <;> rw [ht] at h
    · cases h
    rw [Option.some.injEq] at h
    subst h
    have h1 := dumps_fdepth hd hw hh
    have h2 := dumpsItems_fdepth tl tparts ht
    obtain ⟨c, w', he, -⟩ := dumps_head _ _ hh
    have hwlen : 1 ≤ hw.length := by rw [he]; simp
    cases tl with
    | nil =>
      rw [PyList.dumpsItems, Option.some.injEq] at ht
      subst ht
      have hmax : max (PyVal.fdepth hd) (PyList.fdepthItems PyList.nil) ≤
          hw.length := Nat.max_le.mpr ⟨h1, by rw [PyList.fdepthItems]; omega⟩
      simp only [PyList.fdepthItems, joinParts]
      omega
    | cons hd2 tl2 =>
      rw [PyList.dumpsItems] at ht
      rcases hh2 : PyVal.dumps hd2 with _ | h2w <;> rw [hh2] at ht
      · cases ht
      rcases ht2 : PyList.dumpsItems tl2 with _ | t2parts <;> rw [ht2] at ht
      · cases ht
      rw [Option.some.injEq] at ht
      subst ht
      have hJ : joinParts (hw :: h2w :: t2parts) =
          hw ++ ',' :: joinParts (h2w :: t2parts) := rfl
      rw [hJ, List.length_append, List.length_cons]
      have hmax : max (PyVal.fdepth hd)
          (PyList.fdepthItems (PyList.cons hd2 tl2)) ≤
          hw.length + ((joinParts (h2w :: t2parts)).length + 1) :=
        Nat.max_le.mpr ⟨by omega, by omega⟩
      have hun : (PyList.cons hd (PyList.cons hd2 tl2)).fdepthItems =
          max (PyVal.fdepth hd) ((PyList.cons hd2 tl2).fdepthItems) + 1 := rfl
      rw [hun]
      omega

theorem dumpsEntries_fdepth (d : PyDict) :
    ∀ parts : List (List Char), PyDict.dumpsEntries d = some parts →
      PyDict.fdepthEntries d ≤ (joinParts parts).length + 1 := by
  intro parts h
  cases d with
  | nil =>
    rw [PyDict.dumpsEntries, Option.some.injEq] at h
    subst h
    simp [PyDict.fdepthEntries, joinParts]
  | cons k v tl =>
    rw [PyDict.dumpsEntries] at h
    rcases hk : jsonKeyStr k with _ | ks <;> rw [hk] at h
    · cases h
    rcases hv : PyVal.dumps v with _ | vw <;> rw [hv] at h
    · cases h
    rcases ht : PyDict.dumpsEntries tl with _ | tparts <;> rw [ht] at h
    · cases h
    rw [Option.some.injEq] at h
    subst h
    have h1 := dumps_fdepth v vw hv
    have h2 := dumpsEntries_fdepth tl tparts ht
    have hplen : vw.length + 1 ≤ (encodeJsonString ks ++ ':' :: vw).length := by
      rw [List.length_append, List.length_cons]
      omega
    cases tl with
    | nil =>
      rw [PyDict.dumpsEntries, Option.some.injEq] at ht
      subst ht
      have hmax : max (PyVal.fdepth v) (PyDict.fdepthEntries PyDict.nil) ≤
          (encodeJsonString ks ++ ':' :: vw).length :=
        Nat.max_le.mpr ⟨by omega, by rw [PyDict.fdepthEntries]; omega⟩
      simp only [PyDict.fdepthEntries, joinParts]
      omega
    | cons k2 v2 tl2 =>
      rw [PyDict.dumpsEntries] at ht
      rcases hk2 : jsonKeyStr k2 with _ | k2s <;> rw [hk2] at ht
      · cases ht
      rcases hv2 : PyVal.dumps v2 with _ | v2w <;> rw [hv2] at ht
      · cases ht
      rcases ht2 : PyDict.dumpsEntries tl2 with _ | t2parts <;> rw [ht2] at ht
      · cases ht
      rw [Option.some.injEq] at ht
      subst ht
      have hJ : joinParts ((encodeJsonString ks ++ ':' :: vw) ::
          (encodeJsonString k2s ++ ':' :: v2w) :: t2parts) =
          (encodeJsonString ks ++ ':' :: vw) ++
            ',' :: joinParts ((encodeJsonString k2s ++ ':' :: v2w) :: t2parts) := rfl
      rw [hJ, List.length_append, List.length_cons]
      have hmax : max (PyVal.fdepth v)
          (PyDict.fdepthEntries (PyDict.cons k2 v2 tl2)) ≤
          (encodeJsonString ks ++ ':' :: vw).length +
            ((joinParts ((encodeJsonString k2s ++ ':' :: v2w) :: t2parts)).length + 1) :=
        Nat.max_le.mpr ⟨by omega, by omega⟩
      have hun : (PyDict.cons k v (PyDict.cons k2 v2 tl2)).fdepthEntries =
          max (PyVal.fdepth v) ((PyDict.cons k2 v2 tl2).fdepthEntries) + 1 := rfl
      rw [hun]
      omega

end

/-! ## The reader inverts the serializer -/

theorem joinParts_cons_cons (p q : List Char) (ps : List (List Char)) :
    joinParts (p :: q :: ps) = p ++ ',' :: joinParts (q :: ps) := rfl

/-- One fuel level of the round trip: values, non-empty array bodies,
non-empty object bodies. -/
theorem parse_roundtrip : ∀ fuel : Nat,
    (∀ (v : PyVal) (w rest : List Char),
      PyVal.loadable v = true → PyVal.fdepth v < fuel → PyVal.dumps v = some w →
      numBoundary rest = true →
      parseVal fuel (w ++ rest) = some (PyVal.specNormal v, rest)) ∧
    (∀ (hd : PyVal) (tl : PyList) (parts : List (List Char)) (rest : List Char),
      PyList.loadableItems (PyList.cons hd tl) = true →
      PyList.fdepthItems (PyList.cons hd tl) < fuel →
      PyList.dumpsItems (PyList.cons hd tl) = some parts →
      parseListBody fuel (joinParts parts ++ (']' :: rest)) =
        some (PyList.specNormalItems (PyList.cons hd tl), rest)) ∧
    (∀ (k v : PyVal) (tl : PyDict) (parts : List (List Char)) (rest : List Char),
      PyDict.loadableEntries (PyDict.cons k v tl) = true →
      PyDict.fdepthEntries (PyDict.cons k v tl) < fuel →
      PyDict.dumpsEntries (PyDict.cons k v tl) = some parts →
      parseObjBody fuel (joinParts parts ++ ('}' :: rest)) =
        some (PyDict.specNormalEntries (PyDict.cons k v tl), rest)) := by
  intro fuel
  induction fuel with
  | zero =>
    exact ⟨fun v w rest _ hdep _ _ => absurd hdep (Nat.not_lt_zero _),
      fun hd tl parts rest _ hdep _ => absurd hdep (Nat.not_lt_zero _),
      fun k v tl parts rest _ hdep _ => absurd hdep (Nat.not_lt_zero _)⟩
  | succ fuel ih =>
    obtain ⟨ihP, ihQ, ihR⟩ := ih
    refine ⟨?_, ?_, ?_⟩
    · intro v w rest hload hdep hdump hb
      cases v with
      | str s =>
        simp only [PyVal.dumps, Option.some.injEq] at hdump
        subst hdump
        rw [encodeJsonString_cons, List.cons_append, List.append_assoc,
          List.singleton_append]
        simp only [parseVal]
        rw [skipWs_cons_of_not _ _ (by decide)]
        dsimp only
        rw [if_pos rfl, parseStringBody_append]
        simp [PyVal.specNormal, stringMk_data]
      | datetime iso =>
        simp only [PyVal.dumps, Option.some.injEq] at hdump
        subst hdump
        rw [encodeJsonString_cons, List.cons_append, List.append_assoc,
          List.singleton_append]
        simp only [parseVal]
        rw [skipWs_cons_of_not _ _ (by decide)]
        dsimp only
        rw [if_pos rfl, parseStringBody_append]
        simp [PyVal.specNormal, stringMk_data]
      | obj rep =>
        simp only [PyVal.dumps, Option.some.injEq] at hdump
        subst hdump
        rw [encodeJsonString_cons, List.cons_append, List.append_assoc,
          List.singleton_append]
        simp only [parseVal]
        rw [skipWs_cons_of_not _ _ (by decide)]
        dsimp only
        rw [if_pos rfl, parseStringBody_append]
        simp [PyVal.specNormal, stringMk_data]
      | bytes b => simp [PyVal.loadable] at hload
      | tuple l => simp [PyVal.loadable] at hload
      | int n =>
        simp only [PyVal.dumps, Option.some.injEq] at hdump
        subst hdump
        have hhead : ∃ c cs, intRepr n = c :: cs ∧
            (c.toNat = 45 ∨ (48 ≤ c.toNat ∧ c.toNat ≤ 57)) := by
          unfold intRepr
          by_cases hneg : n < 0
          · rw [if_pos hneg]
            exact ⟨'-', _, rfl, Or.inl rfl⟩
          · rw [if_neg hneg]
            obtain ⟨c, cs, heq, h48, h57, _, _⟩ := natRepr_cons n.toNat
            exact ⟨c, cs, heq, Or.inr ⟨h48, h57⟩⟩
        obtain ⟨c, cs, heq, hcn⟩ := hhead
        have hws : jsonWs c = false := by
          simp only [jsonWs, Bool.or_eq_false_iff, decide_eq_false_iff_not]
          refine ⟨⟨⟨?_, ?_⟩, ?_⟩, ?_⟩ <;>
            (intro he; rw [he] at hcn; revert hcn; decide)
        have hq : ¬ c = '"' := fun he => by rw [he] at hcn; revert hcn; decide
        have hbr : ¬ c = '{' := fun he => by rw [he] at hcn; revert hcn; decide
        have hsq : ¬ c = '[' := fun he => by rw [he] at hcn; revert hcn; decide
        have htc : ¬ c = 't' := fun he => by rw [he] at hcn; revert hcn; decide
        have hfc : ¬ c = 'f' := fun he => by rw [he] at hcn; revert hcn; decide
        have hnc : ¬ c = 'n' := fun he => by rw [he] at hcn; revert hcn; decide
        rw [heq, List.cons_append]
        simp only [parseVal]
        rw [skipWs_cons_of_not _ _ hws]
        dsimp only
        rw [if_neg hq, if_neg hbr, if_neg hsq, if_neg htc, if_neg hfc, if_neg hnc,
          ← List.cons_append, ← heq, parseNumber_intRepr n rest hb]
        simp [PyVal.specNormal]
      | bool b =>
        cases b
        · have hdump' : w = ['f', 'a', 'l', 's', 'e'] := by
            rw [show PyVal.dumps (.bool false) = some ['f', 'a', 'l', 's', 'e']
              from rfl, Option.some.injEq] at hdump
            exact hdump.symm
          subst hdump'
          simp only [List.cons_append, List.nil_append]
          simp only [parseVal]
          rw [skipWs_cons_of_not _ _ (by decide)]
          dsimp only
          rw [if_neg (by decide), if_neg (by decide), if_neg (by decide),
            if_neg (by decide), if_pos rfl]
          simp [PyVal.specNormal]
        · have hdump' : w = ['t', 'r', 'u', 'e'] := by
            rw [show PyVal.dumps (.bool true) = some ['t', 'r', 'u', 'e']
              from rfl, Option.some.injEq] at hdump
            exact hdump.symm
          subst hdump'
          simp only [List.cons_append, List.nil_append]
          simp only [parseVal]
          rw [skipWs_cons_of_not _ _ (by decide)]
          dsimp only
          rw [if_neg (by decide), if_neg (by decide), if_neg (by decide),
            if_pos rfl]
          simp [PyVal.specNormal]
      | pynone =>
        simp only [PyVal.dumps, Option.some.injEq] at hdump
        subst hdump
        simp only [List.cons_append, List.nil_append]
        simp only [parseVal]
        rw [skipWs_cons_of_not _ _ (by decide)]
        dsimp only
        rw [if_neg (by decide), if_neg (by decide), if_neg (by decide),
          if_neg (by decide), if_neg (by decide), if_pos rfl]
        simp [PyVal.specNormal]
      | list l =>
        rw [PyVal.dumps] at hdump
        rcases hl : l.dumpsItems with _ | parts <;> rw [hl] at hdump
        · cases hdump
        rw [Option.some.injEq] at hdump
        subst hdump
        simp only [List.cons_append, List.append_assoc, List.singleton_append,
          List.nil_append]
        simp only [parseVal]
        rw [skipWs_cons_of_not _ _ (by decide)]
        dsimp only
        rw [if_neg (by decide), if_neg (by decide), if_pos rfl]
        cases l with
        | nil =>
          rw [PyList.dumpsItems, Option.some.injEq] at hl
          subst hl
          rw [show joinParts [] = [] from rfl, List.nil_append,
            skipWs_cons_of_not _ _ (by decide)]
          dsimp only
          rw [if_pos rfl]
          simp [PyVal.specNormal, PyList.specNormalItems]
        | cons hd tl =>
          rw [PyList.dumpsItems] at hl
          rcases hh : PyVal.dumps hd with _ | hw <;> rw [hh] at hl
          · cases hl
          rcases ht : PyList.dumpsItems tl with _ | tparts <;> rw [ht] at hl
          · cases hl
          rw [Option.some.injEq] at hl
          subst hl
          obtain ⟨c0, w0, he0, hws0, hb1, hb2, hb3, hb4⟩ := dumps_head hd hw hh
          have hshape : ∃ y, joinParts (hw :: tparts) ++ (']' :: rest) = c0 :: y := by
            cases tparts with
            | nil => exact ⟨w0 ++ (']' :: rest), by rw [show joinParts [hw] = hw from rfl, he0, List.cons_append]⟩
            | cons q qs =>
              exact ⟨(w0 ++ ',' :: joinParts (q :: qs)) ++ (']' :: rest), by
                rw [joinParts_cons_cons, he0, List.cons_append, List.cons_append]⟩
          obtain ⟨y, hy⟩ := hshape
          rw [hy, skipWs_cons_of_not _ _ hws0]
          dsimp only
          rw [if_neg hb1, ← hy]
          have hQ := ihQ hd tl (hw :: tparts) rest
            (by rw [PyVal.loadable] at hload; exact hload)
            (by rw [show PyVal.fdepth (.list (PyList.cons hd tl)) =
                  PyList.fdepthItems (PyList.cons hd tl) + 1 from rfl] at hdep
                omega)
            (by rw [PyList.dumpsItems, hh, ht])
          rw [hQ]
          simp [PyVal.specNormal]
      | dict d =>
        rw [PyVal.dumps] at hdump
        rcases hd' : d.dumpsEntries with _ | parts <;> rw [hd'] at hdump
        · cases hdump
        rw [Option.some.injEq] at hdump
        subst hdump
        simp only [List.cons_append, List.append_assoc, List.singleton_append,
          List.nil_append]
        simp only [parseVal]
        rw [skipWs_cons_of_not _ _ (by decide)]
        dsimp only
        rw [if_neg (by decide), if_pos rfl]
        cases d with
        | nil =>
          rw [PyDict.dumpsEntries, Option.some.injEq] at hd'
          subst hd'
          rw [show joinParts [] = [] from rfl, List.nil_append,
            skipWs_cons_of_not _ _ (by decide)]
          dsimp only
          rw [if_pos rfl]
          simp [PyVal.specNormal, PyDict.specNormalEntries]
        | cons k v tl =>
          rw [PyDict.dumpsEntries] at hd'
          rcases hk : jsonKeyStr k with _ | ks <;> rw [hk] at hd'
          · cases hd'
          rcases hv : PyVal.dumps v with _ | vw <;> rw [hv] at hd'
          · cases hd'
          rcases ht : PyDict.dumpsEntries tl with _ | tparts <;> rw [ht] at hd'
          · cases hd'
          rw [Option.some.injEq] at hd'
          subst hd'
          have hshape : ∃ y,
              joinParts ((encodeJsonString ks ++ ':' :: vw) :: tparts) ++
                ('}' :: rest) = '"' :: y := by
            cases tparts with
            | nil =>
              exact ⟨(ks.data.map encodeJsonChar).flatten ++ ['"'] ++
                  ':' :: vw ++ ('}' :: rest), by
                rw [show joinParts [encodeJsonString ks ++ ':' :: vw] =
                    encodeJsonString ks ++ ':' :: vw from rfl,
                  encodeJsonString_cons]
                simp [List.append_assoc]⟩
            | cons q qs =>
              exact ⟨(ks.data.map encodeJsonChar).flatten ++ ['"'] ++
                  ':' :: vw ++ ',' :: joinParts (q :: qs) ++ ('}' :: rest), by
                rw [joinParts_cons_cons, encodeJsonString_cons]
                simp [List.append_assoc]⟩
          obtain ⟨y, hy⟩ := hshape
          rw [hy, skipWs_cons_of_not _ _ (by decide)]
          dsimp only
          rw [if_neg (by decide), ← hy]
          have hR := ihR k v tl ((encodeJsonString ks ++ ':' :: vw) :: tparts) rest
            (by rw [PyVal.loadable] at hload; exact hload)
            (by rw [show PyVal.fdepth (.dict (PyDict.cons k v tl)) =
                  PyDict.fdepthEntries (PyDict.cons k v tl) + 1 from rfl] at hdep
                omega)
            (by rw [PyDict.dumpsEntries, hk, hv, ht])
          rw [hR]
          simp [PyVal.specNormal]
    · intro hd tl parts rest hload hdep hdump
      rw [PyList.dumpsItems] at hdump
      rcases hh : PyVal.dumps hd with _ | hw <;> rw [hh] at hdump
      · cases hdump
      rcases ht : PyList.dumpsItems tl with _ | tparts <;> rw [ht] at hdump
      · cases hdump
      rw [Option.some.injEq] at hdump
      subst hdump
      have hloads : PyVal.loadable hd = true ∧ PyList.loadableItems tl = true := by
        rw [show PyList.loadableItems (PyList.cons hd tl) =
          (PyVal.loadable hd && PyList.loadableItems tl) from rfl,
          Bool.and_eq_true] at hload
        exact hload
      have hdep' : PyList.fdepthItems (PyList.cons hd tl) =
          max (PyVal.fdepth hd) (PyList.fdepthItems tl) + 1 := rfl
      have hmax1 := Nat.le_max_left (PyVal.fdepth hd) (PyList.fdepthItems tl)
      have hmax2 := Nat.le_max_right (PyVal.fdepth hd) (PyList.fdepthItems tl)
      have hdep1 : PyVal.fdepth hd < fuel := by omega
      have hdep2 : PyList.fdepthItems tl < fuel := by omega
      cases tl with
      | nil =>
        rw [PyList.dumpsItems, Option.some.injEq] at ht
        subst ht
        rw [show joinParts [hw] = hw from rfl]
        simp only [parseListBody]
        rw [ihP hd hw (']' :: rest) hloads.1 hdep1 hh rfl]
        dsimp only
        rw [skipWs_cons_of_not _ _ (by decide)]
        dsimp only
        rw [if_neg (by decide), if_pos rfl]
        simp [PyList.specNormalItems]
      | cons hd2 tl2 =>
        rw [PyList.dumpsItems] at ht
        rcases hh2 : PyVal.dumps hd2 with _ | h2w <;> rw [hh2] at ht
        · cases ht
        rcases ht2 : PyList.dumpsItems tl2 with _ | t2parts <;> rw [ht2] at ht
        · cases ht
        rw [Option.some.injEq] at ht
        subst ht
        rw [joinParts_cons_cons]
        simp only [List.cons_append, List.append_assoc, List.singleton_append,
          List.nil_append]
        simp only [parseListBody]
        rw [ihP hd hw (',' :: (joinParts (h2w :: t2parts) ++ ']' :: rest))
          hloads.1 hdep1 hh rfl]
        dsimp only
        rw [skipWs_cons_of_not _ _ (by decide)]
        dsimp only
        rw [if_pos rfl]
        rw [ihQ hd2 tl2 (h2w :: t2parts) rest hloads.2 hdep2
          (by rw [PyList.dumpsItems, hh2, ht2])]
        simp [PyList.specNormalItems]
    · intro k v tl parts rest hload hdep hdump
      rw [PyDict.dumpsEntries] at hdump
      rcases hk : jsonKeyStr k with _ | ks <;> rw [hk] at hdump
      · cases hdump
      rcases hv : PyVal.dumps v with _ | vw <;> rw [hv] at hdump
      · cases hdump
      rcases ht : PyDict.dumpsEntries tl with _ | tparts <;> rw [ht] at hdump
      · cases hdump
      rw [Option.some.injEq] at hdump
      subst hdump
      have hks : ∃ s0, k = PyVal.str s0 := by
        cases k
        case str s0 => exact ⟨s0, rfl⟩
        all_goals simp [PyDict.loadableEntries] at hload
      obtain ⟨s0, rfl⟩ := hks
      have hks' : ks = s0 := by
        rw [show jsonKeyStr (PyVal.str s0) = some s0 from rfl,
          Option.some.injEq] at hk
        exact hk.symm
      subst hks'
      have hloads : PyVal.loadable v = true ∧ PyDict.loadableEntries tl = true := by
        rw [show PyDict.loadableEntries (PyDict.cons (PyVal.str ks) v tl) =
          (true && PyVal.loadable v && PyDict.loadableEntries tl) from rfl,
          Bool.true_and, Bool.and_eq_true] at hload
        exact hload
      have hdep' : PyDict.fdepthEntries (PyDict.cons (PyVal.str ks) v tl) =
          max (PyVal.fdepth v) (PyDict.fdepthEntries tl) + 1 := rfl
      have hmax1 := Nat.le_max_left (PyVal.fdepth v) (PyDict.fdepthEntries tl)
      have hmax2 := Nat.le_max_right (PyVal.fdepth v) (PyDict.fdepthEntries tl)
      have hdep1 : PyVal.fdepth v < fuel := by omega
      have hdep2 : PyDict.fdepthEntries tl < fuel := by omega
      cases tl with
      | nil =>
        rw [PyDict.dumpsEntries, Option.some.injEq] at ht
        subst ht
        rw [show joinParts [encodeJsonString ks ++ ':' :: vw] =
          encodeJsonString ks ++ ':' :: vw from rfl, encodeJsonString_cons]
        simp only [List.cons_append, List.append_assoc, List.singleton_append,
          List.nil_append]
        simp only [parseObjBody]
        rw [skipWs_cons_of_not _ _ (by decide)]
        dsimp only
        rw [if_pos rfl, parseStringBody_append]
        dsimp only
        rw [skipWs_cons_of_not _ _ (by decide)]
        dsimp only
        rw [if_pos rfl]
        rw [ihP v vw ('}' :: rest) hloads.1 hdep1 hv rfl]
        dsimp only
        rw [skipWs_cons_of_not _ _ (by decide)]
        dsimp only
        rw [if_neg (by decide), if_pos rfl]
        simp [PyDict.specNormalEntries, PyVal.specNormal, stringMk_data]
      | cons k2 v2 tl2 =>
        rw [PyDict.dumpsEntries] at ht
        rcases hk2 : jsonKeyStr k2 with _ | k2s <;> rw [hk2] at ht
        · cases ht
        rcases hv2 : PyVal.dumps v2 with _ | v2w <;> rw [hv2] at ht
        · cases ht
        rcases ht2 : PyDict.dumpsEntries tl2 with _ | t2parts <;> rw [ht2] at ht
        · cases ht
        rw [Option.some.injEq] at ht
        subst ht
        rw [joinParts_cons_cons, encodeJsonString_cons]
        simp only [List.cons_append, List.append_assoc, List.singleton_append,
          List.nil_append]
        simp only [parseObjBody]
        rw [skipWs_cons_of_not _ _ (by decide)]
        dsimp only
        rw [if_pos rfl, parseStringBody_append]
        dsimp only
        rw [skipWs_cons_of_not _ _ (by decide)]
        dsimp only
        rw [if_pos rfl]
        rw [ihP v vw
          (',' :: (joinParts ((encodeJsonString k2s ++ ':' :: v2w) :: t2parts) ++
            '}' :: rest)) hloads.1 hdep1 hv rfl]
        dsimp only
        rw [skipWs_cons_of_not _ _ (by decide)]
        dsimp only
        rw [if_pos rfl]
        rw [ihR k2 v2 tl2 ((encodeJsonString k2s ++ ':' :: v2w) :: t2parts) rest
          hloads.2 hdep2 (by rw [PyDict.dumpsEntries, hk2, hv2, ht2])]
        simp [PyDict.specNormalEntries, PyVal.specNormal, stringMk_data]

theorem lookup_dictSet (md : List (String × PyVal)) (k k' : String) (v : PyVal) :
    (dictSet md k v).lookup k' = if k' = k then some v else md.lookup k' := by
  induction md with
  | nil =>
    by_cases h : k' = k
    · simp [dictSet, List.lookup, h]
    · simp [dictSet, List.lookup, h, beq_eq_false_iff_ne.mpr h]
  | cons hd tl ih =>
    obtain ⟨k₀, v₀⟩ := hd
    by_cases h1 : k₀ = k
    · subst h1
      by_cases h2 : k' = k₀
      · subst h2; simp [dictSet, List.lookup]
      · simp [dictSet, List.lookup, h2, beq_eq_false_iff_ne.mpr h2]
    · by_cases h2 : k' = k₀
      · subst h2
        simp [dictSet, List.lookup, h1]
      · simp [dictSet, List.lookup, h1, beq_eq_false_iff_ne.mpr h1,
          beq_eq_false_iff_ne.mpr h2, ih]

theorem underscore_append_inj {a b : String} (h : "_" ++ a = "_" ++ b) :
    a = b := by
  have hd := congrArg String.data h
  rw [String.data_append, String.data_append] at hd
  exact String.ext (List.append_cancel_left hd)

theorem pyStartsWith_underscore_append (s : String) :
    pyStartsWith ("_" ++ s) ("_") = true := by
  simp [pyStartsWith, String.data_append, List.isPrefixOf]

theorem underscore_append_ne (k : String)
    (hk : pyStartsWith k ("_") = false) (s : String) : ("_" ++ s) ≠ k := by
  intro he
  rw [← he, pyStartsWith_underscore_append] at hk
  cases hk

theorem addExtra_lookup_of_ne (md attrs : List (String × PyVal)) (k : String)
    (h : ∀ kv ∈ attrs, ("_" ++ kv.1) ≠ k) :
    (BaseGELFHandler._add_extra_fields md attrs).lookup k = md.lookup k := by
  induction attrs generalizing md with
  | nil => rfl
  | cons a tl ih =>
    unfold BaseGELFHandler._add_extra_fields at *
    rw [List.foldl_cons]
    rw [ih _ fun kv hkv => h kv (List.mem_cons_of_mem a hkv)]
    by_cases hc : (!(skip_list.contains a.1) && !(pyStartsWith a.1 ("_"))) = true
    · rw [if_pos hc, lookup_dictSet, if_neg fun he => h a (List.mem_cons_self a tl) he.symm]
    · rw [if_neg hc]

theorem addExtra_lookup_mem (md attrs : List (String × PyVal)) (k : String)
    (v : PyVal)
    (hnd : (attrs.map Prod.fst).Nodup)
    (hmem : (k, v) ∈ attrs)
    (hskip : skip_list.contains k = false)
    (hund : pyStartsWith k ("_") = false) :
    (BaseGELFHandler._add_extra_fields md attrs).lookup ("_" ++ k) = some v := by
  induction attrs generalizing md with
  | nil => cases hmem
  | cons a tl ih =>
    rw [List.map_cons, List.nodup_cons] at hnd
    unfold BaseGELFHandler._add_extra_fields
    rw [List.foldl_cons]
    rcases List.mem_cons.mp hmem with he | htl
    · subst he
      have hskip' : k ∉ skip_list := by simpa using hskip
      rw [if_pos (by simp [hskip', hund])]
      have hni : ∀ kv ∈ tl, ("_" ++ kv.1) ≠ ("_" ++ k) := by
        intro kv hkv he
        have h1 : kv.1 = k := underscore_append_inj he
        have h2 : kv.1 ∈ tl.map Prod.fst := List.mem_map_of_mem Prod.fst hkv
        rw [h1] at h2
        exact hnd.1 h2
      rw [show (tl.foldl _ _ : List (String × PyVal)) =
        BaseGELFHandler._add_extra_fields (dictSet md ("_" ++ k) v) tl from rfl]
      rw [addExtra_lookup_of_ne _ _ _ hni, lookup_dictSet, if_pos rfl]
    · exact ih _ hnd.2 htl

theorem addExtra_filter (md attrs : List (String × PyVal)) :
    BaseGELFHandler._add_extra_fields md attrs =
      BaseGELFHandler._add_extra_fields md
        (attrs.filter fun kv =>
          !(skip_list.contains kv.1) && !(pyStartsWith kv.1 ("_"))) := by
  induction attrs generalizing md with
  | nil => rfl
  | cons a tl ih =>
    unfold BaseGELFHandler._add_extra_fields
    rw [List.foldl_cons, List.filter_cons]
    by_cases hc : (!(skip_list.contains a.1) && !(pyStartsWith a.1 ("_"))) = true
    · rw [if_pos hc, if_pos hc, List.foldl_cons, if_pos hc]
      exact ih _
    · rw [if_neg hc, if_neg hc]
      exact ih _

/-! ## Claim theorems: field extractor -/

/-- C6: the document's `level` value is the record's severity mapped
through `SYSLOG_LEVELS` (CRITICAL→2, ERROR→3, WARNING→4, INFO→6, DEBUG→7)
and passes through unchanged for severities outside the table. -/
theorem extractor_c6 (h : BaseGELFHandler) (fq hn : String)
    (record : LogRecord) :
    (h._make_message_dict fq hn record).lookup ("level") =
      some (.int (syslogLevel record.levelno)) ∧
    syslogLevel 50 = 2 ∧ syslogLevel 40 = 3 ∧ syslogLevel 30 = 4 ∧
    syslogLevel 20 = 6 ∧ syslogLevel 10 = 7 ∧
    (∀ n : Int, n ≠ 50 → n ≠ 40 → n ≠ 30 → n ≠ 20 → n ≠ 10 →
      syslogLevel n = n) := by
  refine ⟨?_, by decide, by decide, by decide, by decide, by decide, ?_⟩
  · simp only [BaseGELFHandler._make_message_dict]
    by_cases h1 : h.level_names <;> by_cases h2 : h.facility.isSome <;>
      by_cases h3 : h.debugging_fields <;> by_cases h4 : h.extra_fields <;>
      simp only [h1, h2, h3, h4, if_true, if_false] <;>
      (try rw [addExtra_lookup_of_ne _ _ _
        (fun kv _ => underscore_append_ne ("level") (by decide) kv.1)]) <;>
      (try cases record.processName) <;>
      simp [lookup_dictSet, List.lookup]
  · intro n n50 n40 n30 n20 n10
    simp [syslogLevel, SYSLOG_LEVELS, List.lookup,
      beq_eq_false_iff_ne.mpr n50, beq_eq_false_iff_ne.mpr n40,
      beq_eq_false_iff_ne.mpr n30, beq_eq_false_iff_ne.mpr n20,
      beq_eq_false_iff_ne.mpr n10]

/-- C6 witness: a record at severity ERROR (40), and one at the
out-of-table severity 35. -/
theorem extractor_c6_witness :
    (BaseGELFHandler._make_message_dict
      ⟨1420, false, false, false, none, none, false, true, none⟩
      ("fq") ("hn")
      ⟨"root", 40, "p", 1, .pynone, "m", none, none, "f", none, none, none, []⟩).lookup
        ("level") = some (.int (syslogLevel 40)) ∧ syslogLevel 35 = 35 :=
  ⟨(extractor_c6 ⟨1420, false, false, false, none, none, false, true, none⟩
      ("fq") ("hn")
      ⟨"root", 40, "p", 1, .pynone, "m", none, none, "f", none, none, none, []⟩).1,
    (extractor_c6 ⟨1420, false, false, false, none, none, false, true, none⟩
      ("fq") ("hn")
      ⟨"root", 35, "p", 1, .pynone, "m", none, none, "f", none, none, none, []⟩).2.2.2.2.2.2
      35 (by decide) (by decide) (by decide) (by decide) (by decide)⟩

/-- C7: with extra fields enabled, every record attribute whose key is
neither in the reserved skip list nor starts with an underscore lands in
the document as `'_' + key ↦ value`, overwriting any already-present field
of that name; skipped attributes (including the literal key `id`) change
nothing. -/
theorem extractor_c7 (md attrs : List (String × PyVal)) (k : String)
    (v : PyVal)
    (hnd : (attrs.map Prod.fst).Nodup)
    (hmem : (k, v) ∈ attrs)
    (hskip : skip_list.contains k = false)
    (hund : pyStartsWith k ("_") = false) :
    (BaseGELFHandler._add_extra_fields md attrs).lookup ("_" ++ k) = some v ∧
    BaseGELFHandler._add_extra_fields md attrs =
      BaseGELFHandler._add_extra_fields md
        (attrs.filter fun kv =>
          !(skip_list.contains kv.1) && !(pyStartsWith kv.1 ("_"))) ∧
    skip_list.contains ("id") = true :=
  ⟨addExtra_lookup_mem md attrs k v hnd hmem hskip hund,
    addExtra_filter md attrs, by decide⟩

/-- C7 witness: attribute `user` overwrites a pre-existing `_user` field;
attributes `id` and `_private` are dropped. -/
theorem extractor_c7_witness :
    (BaseGELFHandler._add_extra_fields [("_user", .int 0)]
      [("user", .str "u"), ("_private", .int 1), ("id", .int 9)]).lookup
        ("_" ++ "user") = some (.str "u") ∧
    BaseGELFHandler._add_extra_fields [("_user", .int 0)]
      [("user", .str "u"), ("_private", .int 1), ("id", .int 9)] =
      BaseGELFHandler._add_extra_fields [("_user", .int 0)]
        ([("user", .str "u"), ("_private", .int 1), ("id", .int 9)].filter
          fun kv => !(skip_list.contains kv.1) && !(pyStartsWith kv.1 ("_"))) ∧
    skip_list.contains ("id") = true :=
  extractor_c7 [("_user", .int 0)]
    [("user", .str "u"), ("_private", .int 1), ("id", .int 9)]
    ("user") (.str "u") (by decide) (by decide) (by decide) (by decide)

/-- C10: with the facility override set to the empty string (set but
falsy), the `facility` field falls back to the record's logger name —
because the field value uses truthiness (`self.facility or record.name`) —
while `_logger` is nevertheless added — because that branch tests
`self.facility is not None`. -/
theorem extractor_c10 (h : BaseGELFHandler) (fq hn : String)
    (record : LogRecord)
    (hfac : h.facility = some "")
    (hlog : ("logger") ∉ record.attrs.map Prod.fst) :
    (h._make_message_dict fq hn record).lookup ("facility") =
      some (.str record.name) ∧
    (h._make_message_dict fq hn record).lookup ("_logger") =
      some (.str record.name) := by
  have hext_fac : ∀ kv ∈ record.attrs, ("_" ++ kv.1) ≠ "facility" :=
    fun kv _ => underscore_append_ne ("facility") (by decide) kv.1
  have hext_log : ∀ kv ∈ record.attrs, ("_" ++ kv.1) ≠ "_logger" := by
    intro kv hkv he
    have h1 : kv.1 = "logger" := underscore_append_inj he
    have h2 : kv.1 ∈ record.attrs.map Prod.fst := List.mem_map_of_mem Prod.fst hkv
    rw [h1] at h2
    exact hlog h2
  constructor <;>
  · simp only [BaseGELFHandler._make_message_dict, hfac]
    by_cases h1 : h.level_names <;> by_cases h3 : h.debugging_fields <;>
      by_cases h4 : h.extra_fields <;>
      simp only [h1, h3, h4, if_true, if_false, Option.isSome_some, truthyStr] <;>
      (try first
        | rw [addExtra_lookup_of_ne _ _ _ hext_fac]
        | rw [addExtra_lookup_of_ne _ _ _ hext_log]) <;>
      (try cases record.processName) <;>
      simp [lookup_dictSet, List.lookup]

/-- C10 witness: facility override `""` on a concrete record. -/
theorem extractor_c10_witness :
    (BaseGELFHandler._make_message_dict
      ⟨1420, true, true, false, none, some "", true, true, none⟩
      ("fq") ("hn")
      ⟨"my.logger", 20, "p", 1, .pynone, "m", none, none, "f", some 2,
        some "t", some "proc", [("user", .str "u")]⟩).lookup ("facility") =
      some (.str "my.logger") ∧
    (BaseGELFHandler._make_message_dict
      ⟨1420, true, true, false, none, some "", true, true, none⟩
      ("fq") ("hn")
      ⟨"my.logger", 20, "p", 1, .pynone, "m", none, none, "f", some 2,
        some "t", some "proc", [("user", .str "u")]⟩).lookup ("_logger") =
      some (.str "my.logger") :=
  extractor_c10 ⟨1420, true, true, false, none, some "", true, true, none⟩
    ("fq") ("hn")
    ⟨"my.logger", 20, "p", 1, .pynone, "m", none, none, "f", some 2,
      some "t", some "proc", [("user", .str "u")]⟩
    rfl (by decide)

/-! ## Sanitized good documents are loadable -/

theorem setKey_loadableEntries : ∀ (d : PyDict) (s : String) (v : PyVal),
    PyDict.loadableEntries d = true → PyVal.loadable v = true →
    PyDict.loadableEntries (PyDict.setKey d (.str s) v) = true
  | .nil, s, v, _, hv => by
    rw [PyDict.setKey]
    simp [PyDict.loadableEntries, hv]
  | .cons k' v' tl, s, v, hd, hv => by
    have hks : ∃ s0, k' = PyVal.str s0 := by
      cases k'
      case str s0 => exact ⟨s0, rfl⟩
      all_goals simp [PyDict.loadableEntries] at hd
    obtain ⟨s0, hs0⟩ := hks
    subst hs0
    simp only [PyDict.loadableEntries, Bool.true_and, Bool.and_eq_true] at hd
    obtain ⟨hv', htl⟩ := hd
    rw [PyDict.setKey]
    by_cases h : PyVal.str s0 = PyVal.str s
    · rw [if_pos h, PyDict.loadableEntries]
      simp [hv, htl]
    · rw [if_neg h, PyDict.loadableEntries]
      simp [hv', setKey_loadableEntries tl s v htl hv]

mutual

theorem sanitize_loadable (v : PyVal) :
    PyVal.docOk v = true → PyVal.loadable (PyVal.sanitize v) = true := by
  intro h
  cases v with
  | dict d =>
    simp only [PyVal.docOk] at h
    exact sanitizeInto_loadable d .nil h rfl
  | list l =>
    simp only [PyVal.docOk] at h
    exact sanitizeItems_loadable l h
  | tuple l => simp [PyVal.docOk] at h
  | bytes b => rfl
  | str s => rfl
  | int n => rfl
  | bool b => rfl
  | pynone => rfl
  | datetime iso => rfl
  | obj rep => rfl

theorem sanitizeItems_loadable (l : PyList) :
    PyList.docOkItems l = true →
    PyList.loadableItems (PyList.sanitizeItems l) = true := by
  intro h
  cases l with
  | nil => rfl
  | cons hd tl =>
    simp only [PyList.docOkItems, Bool.and_eq_true] at h
    rw [PyList.sanitizeItems]
    simp only [PyList.loadableItems, Bool.and_eq_true]
    exact ⟨sanitize_loadable hd h.1, sanitizeItems_loadable tl h.2⟩

theorem sanitizeInto_loadable (d : PyDict) : ∀ acc : PyDict,
    PyDict.docOkEntries d = true → PyDict.loadableEntries acc = true →
    PyDict.loadableEntries (PyDict.sanitizeInto acc d) = true := by
  intro acc hd hacc
  cases d with
  | nil => exact hacc
  | cons k v tl =>
    simp only [PyDict.docOkEntries, Bool.and_eq_true] at hd
    obtain ⟨⟨hk, hv⟩, htl⟩ := hd
    rw [PyDict.sanitizeInto]
    refine sanitizeInto_loadable tl _ htl ?_
    have hksan : ∃ s, PyVal.sanitize k = PyVal.str s := by
      cases k with
      | str s => exact ⟨s, rfl⟩
      | bytes b => exact ⟨utf8Str b, rfl⟩
      | int n => cases hk
      | bool b => cases hk
      | pynone => cases hk
      | datetime iso => cases hk
      | obj rep => cases hk
      | list l => cases hk
      | tuple l => cases hk
      | dict d2 => cases hk
    obtain ⟨s, hs⟩ := hksan
    rw [hs]
    exact setKey_loadableEntries acc s _ hacc (sanitize_loadable v hv)

end

/-! ## Whitespace in the serializer's output -/

theorem hexDigitChar_not_ws : ∀ d < 16, jsonWs (hexDigitChar d) = false := by decide

theorem hex4_not_ws (n : Nat) (x : Char) (hx : x ∈ hex4 n) : jsonWs x = false := by
  simp only [hex4, List.mem_cons, List.not_mem_nil, or_false] at hx
  rcases hx with h | h | h | h <;> subst h <;>
    exact hexDigitChar_not_ws _ (Nat.mod_lt _ (by omega))

theorem digit_not_ws (x : Char) (h : isDigitCh x = true) : jsonWs x = false := by
  simp only [isDigitCh, Bool.and_eq_true, decide_eq_true_eq] at h
  simp only [jsonWs, Bool.or_eq_false_iff, decide_eq_false_iff_not]
  refine ⟨⟨⟨?_, ?_⟩, ?_⟩, ?_⟩ <;>
    (intro he; rw [he] at h; revert h; decide)

theorem intRepr_not_ws (n : Int) (x : Char) (hx : x ∈ intRepr n) :
    jsonWs x = false := by
  unfold intRepr at hx
  by_cases hneg : n < 0
  · rw [if_pos hneg, List.mem_cons] at hx
    rcases hx with h | h
    · subst h; decide
    · exact digit_not_ws x (natRepr_digits _ x h)
  · rw [if_neg hneg] at hx
    exact digit_not_ws x (natRepr_digits _ x hx)

theorem encodeJsonChar_ws (c x : Char) (hx : x ∈ encodeJsonChar c)
    (hws : jsonWs x = true) : x = ' ' ∧ c = ' ' := by
  unfold encodeJsonChar at hx
  by_cases h1 : c = '"'
  · rw [if_pos h1] at hx
    simp only [List.mem_cons, List.not_mem_nil, or_false] at hx
    rcases hx with h | h <;> (subst h; exact absurd hws (by decide))
  rw [if_neg h1] at hx
  by_cases h2 : c = '\\'
  · rw [if_pos h2] at hx
    simp only [List.mem_cons, List.not_mem_nil, or_false] at hx
    rcases hx with h | h <;> (subst h; exact absurd hws (by decide))
  rw [if_neg h2] at hx
  by_cases h3 : c = Char.ofNat 8
  · rw [if_pos h3] at hx
    simp only [List.mem_cons, List.not_mem_nil, or_false] at hx
    rcases hx with h | h <;> (subst h; exact absurd hws (by decide))
  rw [if_neg h3] at hx
  by_cases h4 : c = Char.ofNat 9
  · rw [if_pos h4] at hx
    simp only [List.mem_cons, List.not_mem_nil, or_false] at hx
    rcases hx with h | h <;> (subst h; exact absurd hws (by decide))
  rw [if_neg h4] at hx
  by_cases h5 : c = Char.ofNat 10
  · rw [if_pos h5] at hx
    simp only [List.mem_cons, List.not_mem_nil, or_false] at hx
    rcases hx with h | h <;> (subst h; exact absurd hws (by decide))
  rw [if_neg h5] at hx
  by_cases h6 : c = Char.ofNat 12
  · rw [if_pos h6] at hx
    simp only [List.mem_cons, List.not_mem_nil, or_false] at hx
    rcases hx with h | h <;> (subst h; exact absurd hws (by decide))
  rw [if_neg h6] at hx
  by_cases h7 : c = Char.ofNat 13
  · rw [if_pos h7] at hx
    simp only [List.mem_cons, List.not_mem_nil, or_false] at hx
    rcases hx with h | h <;> (subst h; exact absurd hws (by decide))
  rw [if_neg h7] at hx
  by_cases h8 : (0x20 ≤ c.toNat && c.toNat ≤ 0x7E) = true
  · rw [if_pos h8] at hx
    simp only [List.mem_cons, List.not_mem_nil, or_false] at hx
    subst hx
    simp only [Bool.and_eq_true, decide_eq_true_eq] at h8
    simp only [jsonWs, Bool.or_eq_true, decide_eq_true_eq] at hws
    rcases hws with ((h | h) | h) | h
    · exact ⟨h, h⟩
    all_goals (rw [h] at h8; exact absurd h8 (by decide))
  rw [if_neg h8] at hx
  by_cases h9 : c.toNat < 0x10000
  · rw [if_pos h9] at hx
    simp only [List.mem_cons] at hx
    rcases hx with h | h | h
    · subst h; exact absurd hws (by decide)
    · subst h; exact absurd hws (by decide)
    · rw [hex4_not_ws _ _ h] at hws; cases hws
  rw [if_neg h9] at hx
  simp only [List.cons_append, List.mem_cons, List.mem_append] at hx
  rcases hx with h | h | h | h | h | h
  · subst h; exact absurd hws (by decide)
  · subst h; exact absurd hws (by decide)
  · rw [hex4_not_ws _ _ h] at hws; cases hws
  · subst h; exact absurd hws (by decide)
  · subst h; exact absurd hws (by decide)
  · rw [hex4_not_ws _ _ h] at hws; cases hws

theorem encodeJsonString_ws (s : String) (x : Char) (hx : x ∈ encodeJsonString s)
    (hws : jsonWs x = true) : x = ' ' ∧ ' ' ∈ s.data := by
  unfold encodeJsonString at hx
  simp only [List.mem_cons, List.mem_append, List.not_mem_nil, or_false] at hx
  rcases hx with (h | h) | h
  · subst h; exact absurd hws (by decide)
  · rw [List.mem_flatten] at h
    obtain ⟨l, hl, hxl⟩ := h
    rw [List.mem_map] at hl
    obtain ⟨c, hc, hcl⟩ := hl
    subst hcl
    obtain ⟨hx2, hc2⟩ := encodeJsonChar_ws c x hxl hws
    subst hc2
    exact ⟨hx2, hc⟩
  · subst h; exact absurd hws (by decide)

theorem joinParts_mem (ps : List (List Char)) (x : Char) (hx : x ∈ joinParts ps) :
    (∃ p ∈ ps, x ∈ p) ∨ x = ',' := by
  induction ps with
  | nil => simp [joinParts] at hx
  | cons p ps ih =>
    cases ps with
    | nil =>
      rw [show joinParts [p] = p from rfl] at hx
      exact Or.inl ⟨p, by simp, hx⟩
    | cons q qs =>
      rw [joinParts_cons_cons] at hx
      rcases List.mem_append.mp hx with h | h
      · exact Or.inl ⟨p, by simp, h⟩
      · rcases List.mem_cons.mp h with h | h
        · exact Or.inr h
        · rcases ih h with ⟨r, hr, hxr⟩ | h
          · exact Or.inl ⟨r, by simp [hr], hxr⟩
          · exact Or.inr h

theorem jsonKeyStr_spaceFree (k : PyVal) (ks : String) (hk : jsonKeyStr k = some ks)
    (hsf : PyVal.spaceFree k = true) : ∀ x ∈ ks.data, jsonWs x = false := by
  cases k with
  | str s =>
    rw [show jsonKeyStr (PyVal.str s) = some s from rfl, Option.some.injEq] at hk
    subst hk
    simp only [PyVal.spaceFree, List.all_eq_true, Bool.not_eq_true'] at hsf
    exact hsf
  | int n =>
    rw [show jsonKeyStr (PyVal.int n) = some (String.mk (intRepr n)) from rfl,
      Option.some.injEq] at hk
    subst hk
    intro x hx
    exact intRepr_not_ws n x hx
  | bool b =>
    cases b
    · rw [show jsonKeyStr (PyVal.bool false) = some ("false") from rfl,
        Option.some.injEq] at hk
      subst hk
      decide
    · rw [show jsonKeyStr (PyVal.bool true) = some ("true") from rfl,
        Option.some.injEq] at hk
      subst hk
      decide
  | pynone =>
    rw [show jsonKeyStr PyVal.pynone = some ("null") from rfl,
      Option.some.injEq] at hk
    subst hk
    decide
  | bytes b => cases hk
  | datetime iso => cases hk
  | obj rep => cases hk
  | list l => cases hk
  | tuple l => cases hk
  | dict d => cases hk

mutual

theorem dumps_ws_space (v : PyVal) : ∀ w : List Char, PyVal.dumps v = some w →
    ∀ x ∈ w, jsonWs x = true → x = ' ' := by
  intro w hw x hx hws
  cases v with
  | str s =>
    rw [show PyVal.dumps (PyVal.str s) = some (encodeJsonString s) from rfl,
      Option.some.injEq] at hw
    subst hw
    exact (encodeJsonString_ws s x hx hws).1
  | bytes b =>
    rw [show PyVal.dumps (PyVal.bytes b) = some (encodeJsonString (bytesRepr b))
      from rfl, Option.some.injEq] at hw
    subst hw
    exact (encodeJsonString_ws _ x hx hws).1
  | datetime iso =>
    rw [show PyVal.dumps (PyVal.datetime iso) = some (encodeJsonString iso)
      from rfl, Option.some.injEq] at hw
    subst hw
    exact (encodeJsonString_ws iso x hx hws).1
  | obj rep =>
    rw [show PyVal.dumps (PyVal.obj rep) = some (encodeJsonString rep) from rfl,
      Option.some.injEq] at hw
    subst hw
    exact (encodeJsonString_ws rep x hx hws).1
  | int n =>
    rw [show PyVal.dumps (PyVal.int n) = some (intRepr n) from rfl,
      Option.some.injEq] at hw
    subst hw
    rw [intRepr_not_ws n x hx] at hws
    cases hws
  | bool b =>
    cases b
    · rw [show PyVal.dumps (PyVal.bool false) = some ['f', 'a', 'l', 's', 'e']
        from rfl, Option.some.injEq] at hw
      subst hw
      simp only [List.mem_cons, List.not_mem_nil, or_false] at hx
      rcases hx with h | h | h | h | h <;> (subst h; exact absurd hws (by decide))
    · rw [show PyVal.dumps (PyVal.bool true) = some ['t', 'r', 'u', 'e']
        from rfl, Option.some.injEq] at hw
      subst hw
      simp only [List.mem_cons, List.not_mem_nil, or_false] at hx
      rcases hx with h | h | h | h <;> (subst h; exact absurd hws (by decide))
  | pynone =>
    rw [show PyVal.dumps PyVal.pynone = some ['n', 'u', 'l', 'l'] from rfl,
      Option.some.injEq] at hw
    subst hw
    simp only [List.mem_cons, List.not_mem_nil, or_false] at hx
    rcases hx with h | h | h | h <;> (subst h; exact absurd hws (by decide))
  | list l =>
    rw [PyVal.dumps] at hw
    rcases hl : l.dumpsItems with _ | parts <;> rw [hl] at hw
    · cases hw
    · rw [Option.some.injEq] at hw
      subst hw
      simp only [List.mem_cons, List.mem_append, List.not_mem_nil, or_false] at hx
      rcases hx with (h | h) | h
      · subst h; exact absurd hws (by decide)
      · rcases joinParts_mem parts x h with ⟨p, hp, hxp⟩ | h2
        · exact dumpsItems_ws_space l parts hl p hp x hxp hws
        · subst h2; exact absurd hws (by decide)
      · subst h; exact absurd hws (by decide)
  | tuple l =>
    rw [PyVal.dumps] at hw
    rcases hl : l.dumpsItems with _ | parts <;> rw [hl] at hw
    · cases hw
    · rw [Option.some.injEq] at hw
      subst hw
      simp only [List.mem_cons, List.mem_append, List.not_mem_nil, or_false] at hx
      rcases hx with (h | h) | h
      · subst h; exact absurd hws (by decide)
      · rcases joinParts_mem parts x h with ⟨p, hp, hxp⟩ | h2
        · exact dumpsItems_ws_space l parts hl p hp x hxp hws
        · subst h2; exact absurd hws (by decide)
      · subst h; exact absurd hws (by decide)
  | dict d =>
    rw [PyVal.dumps] at hw
    rcases hd : d.dumpsEntries with _ | parts <;> rw [hd] at hw
    · cases hw
    · rw [Option.some.injEq] at hw
      subst hw
      simp only [List.mem_cons, List.mem_append, List.not_mem_nil, or_false] at hx
      rcases hx with (h | h) | h
      · subst h; exact absurd hws (by decide)
      · rcases joinParts_mem parts x h with ⟨p, hp, hxp⟩ | h2
        · exact dumpsEntries_ws_space d parts hd p hp x hxp hws
        · subst h2; exact absurd hws (by decide)
      · subst h; exact absurd hws (by decide)

theorem dumpsItems_ws_space (l : PyList) : ∀ parts : List (List Char),
    PyList.dumpsItems l = some parts →
    ∀ p ∈ parts, ∀ x ∈ p, jsonWs x = true → x = ' ' := by
  intro parts hparts p hp x hx hws
  cases l with
  | nil =>
    rw [show PyList.dumpsItems PyList.nil = some [] from rfl,
      Option.some.injEq] at hparts
    subst hparts
    cases hp
  | cons hd tl =>
    rw [PyList.dumpsItems] at hparts
    rcases hh : PyVal.dumps hd with _ | hw2 <;> rw [hh] at hparts
    · cases hparts
    rcases ht : PyList.dumpsItems tl with _ | tparts <;> rw [ht] at hparts
    · cases hparts
    rw [Option.some.injEq] at hparts
    subst hparts
    rcases List.mem_cons.mp hp with h | h
    · subst h
      exact dumps_ws_space hd _ hh x hx hws
    · exact dumpsItems_ws_space tl tparts ht p h x hx hws

theorem dumpsEntries_ws_space (d : PyDict) : ∀ parts : List (List Char),
    PyDict.dumpsEntries d = some parts →
    ∀ p ∈ parts, ∀ x ∈ p, jsonWs x = true → x = ' ' := by
  intro parts hparts p hp x hx hws
  cases d with
  | nil =>
    rw [show PyDict.dumpsEntries PyDict.nil = some [] from rfl,
      Option.some.injEq] at hparts
    subst hparts
    cases hp
  | cons k v tl =>
    rw [PyDict.dumpsEntries] at hparts
    rcases hk : jsonKeyStr k with _ | ks <;> rw [hk] at hparts
    · cases hparts
    rcases hv : PyVal.dumps v with _ | vw <;> rw [hv] at hparts
    · cases hparts
    rcases ht : PyDict.dumpsEntries tl with _ | tparts <;> rw [ht] at hparts
    · cases hparts
    rw [Option.some.injEq] at hparts
    subst hparts
    rcases List.mem_cons.mp hp with h | h
    · subst h
      rcases List.mem_append.mp hx with h2 | h2
      · exact (encodeJsonString_ws ks x h2 hws).1
      · rcases List.mem_cons.mp h2 with h3 | h3
        · subst h3; exact absurd hws (by decide)
        · exact dumps_ws_space v vw hv x h3 hws
    · exact dumpsEntries_ws_space tl tparts ht p h x hx hws

end

mutual

theorem dumps_nows (v : PyVal) : ∀ w : List Char, PyVal.spaceFree v = true →
    PyVal.dumps v = some w → ∀ x ∈ w, jsonWs x = false := by
  intro w hsf hw x hx
  by_contra hws0
  rw [Bool.not_eq_false] at hws0
  cases v with
  | str s =>
    rw [show PyVal.dumps (PyVal.str s) = some (encodeJsonString s) from rfl,
      Option.some.injEq] at hw
    subst hw
    obtain ⟨-, hsp⟩ := encodeJsonString_ws s x hx hws0
    simp only [PyVal.spaceFree, List.all_eq_true, Bool.not_eq_true'] at hsf
    exact absurd (hsf ' ' hsp) (by decide)
  | datetime iso =>
    rw [show PyVal.dumps (PyVal.datetime iso) = some (encodeJsonString iso)
      from rfl, Option.some.injEq] at hw
    subst hw
    obtain ⟨-, hsp⟩ := encodeJsonString_ws iso x hx hws0
    simp only [PyVal.spaceFree, List.all_eq_true, Bool.not_eq_true'] at hsf
    exact absurd (hsf ' ' hsp) (by decide)
  | obj rep =>
    rw [show PyVal.dumps (PyVal.obj rep) = some (encodeJsonString rep) from rfl,
      Option.some.injEq] at hw
    subst hw
    obtain ⟨-, hsp⟩ := encodeJsonString_ws rep x hx hws0
    simp only [PyVal.spaceFree, List.all_eq_true, Bool.not_eq_true'] at hsf
    exact absurd (hsf ' ' hsp) (by decide)
  | bytes b => simp [PyVal.spaceFree] at hsf
  | int n =>
    rw [show PyVal.dumps (PyVal.int n) = some (intRepr n) from rfl,
      Option.some.injEq] at hw
    subst hw
    rw [intRepr_not_ws n x hx] at hws0
    cases hws0
  | bool b =>
    cases b
    · rw [show PyVal.dumps (PyVal.bool false) = some ['f', 'a', 'l', 's', 'e']
        from rfl, Option.some.injEq] at hw
      subst hw
      simp only [List.mem_cons, List.not_mem_nil, or_false] at hx
      rcases hx with h | h | h | h | h <;> (subst h; exact absurd hws0 (by decide))
    · rw [show PyVal.dumps (PyVal.bool true) = some ['t', 'r', 'u', 'e']
        from rfl, Option.some.injEq] at hw
      subst hw
      simp only [List.mem_cons, List.not_mem_nil, or_false] at hx
      rcases hx with h | h | h | h <;> (subst h; exact absurd hws0 (by decide))
  | pynone =>
    rw [show PyVal.dumps PyVal.pynone = some ['n', 'u', 'l', 'l'] from rfl,
      Option.some.injEq] at hw
    subst hw
    simp only [List.mem_cons, List.not_mem_nil, or_false] at hx
    rcases hx with h | h | h | h <;> (subst h; exact absurd hws0 (by decide))
  | list l =>
    rw [PyVal.dumps] at hw
    rcases hl : l.dumpsItems with _ | parts <;> rw [hl] at hw
    · cases hw
    · rw [Option.some.injEq] at hw
      subst hw
      simp only [PyVal.spaceFree] at hsf
      simp only [List.mem_cons, List.mem_append, List.not_mem_nil, or_false] at hx
      rcases hx with (h | h) | h
      · subst h; exact absurd hws0 (by decide)
      · rcases joinParts_mem parts x h with ⟨p, hp, hxp⟩ | h2
        · rw [dumpsItems_nows l parts hsf hl p hp x hxp] at hws0
          cases hws0
        · subst h2; exact absurd hws0 (by decide)
      · subst h; exact absurd hws0 (by decide)
  | tuple l =>
    rw [PyVal.dumps] at hw
    rcases hl : l.dumpsItems with _ | parts <;> rw [hl] at hw
    · cases hw
    · rw [Option.some.injEq] at hw
      subst hw
      simp only [PyVal.spaceFree] at hsf
      simp only [List.mem_cons, List.mem_append, List.not_mem_nil, or_false] at hx
      rcases hx with (h | h) | h
      · subst h; exact absurd hws0 (by decide)
      · rcases joinParts_mem parts x h with ⟨p, hp, hxp⟩ | h2
        · rw [dumpsItems_nows l parts hsf hl p hp x hxp] at hws0
          cases hws0
        · subst h2; exact absurd hws0 (by decide)
      · subst h; exact absurd hws0 (by decide)
  | dict d =>
    rw [PyVal.dumps] at hw
    rcases hd : d.dumpsEntries with _ | parts <;> rw [hd] at hw
    · cases hw
    · rw [Option.some.injEq] at hw
      subst hw
      simp only [PyVal.spaceFree] at hsf
      simp only [List.mem_cons, List.mem_append, List.not_mem_nil, or_false] at hx
      rcases hx with (h | h) | h
      · subst h; exact absurd hws0 (by decide)
      · rcases joinParts_mem parts x h with ⟨p, hp, hxp⟩ | h2
        · rw [dumpsEntries_nows d parts hsf hd p hp x hxp] at hws0
          cases hws0
        · subst h2; exact absurd hws0 (by decide)
      · subst h; exact absurd hws0 (by decide)

theorem dumpsItems_nows (l : PyList) : ∀ parts : List (List Char),
    PyList.spaceFreeItems l = true → PyList.dumpsItems l = some parts →
    ∀ p ∈ parts, ∀ x ∈ p, jsonWs x = false := by
  intro parts hsf hparts p hp x hx
  cases l with
  | nil =>
    rw [show PyList.dumpsItems PyList.nil = some [] from rfl,
      Option.some.injEq] at hparts
    subst hparts
    cases hp
  | cons hd tl =>
    simp only [PyList.spaceFreeItems, Bool.and_eq_true] at hsf
    rw [PyList.dumpsItems] at hparts
    rcases hh : PyVal.dumps hd with _ | hw2 <;> rw [hh] at hparts
    · cases hparts
    rcases ht : PyList.dumpsItems tl with _ | tparts <;> rw [ht] at hparts
    · cases hparts
    rw [Option.some.injEq] at hparts
    subst hparts
    rcases List.mem_cons.mp hp with h | h
    · subst h
      exact dumps_nows hd _ hsf.1 hh x hx
    · exact dumpsItems_nows tl tparts hsf.2 ht p h x hx

theorem dumpsEntries_nows (d : PyDict) : ∀ parts : List (List Char),
    PyDict.spaceFreeEntries d = true → PyDict.dumpsEntries d = some parts →
    ∀ p ∈ parts, ∀ x ∈ p, jsonWs x = false := by
  intro parts hsf hparts p hp x hx
  cases d with
  | nil =>
    rw [show PyDict.dumpsEntries PyDict.nil = some [] from rfl,
      Option.some.injEq] at hparts
    subst hparts
    cases hp
  | cons k v tl =>
    simp only [PyDict.spaceFreeEntries, Bool.and_eq_true] at hsf
    obtain ⟨⟨hksf, hvsf⟩, htsf⟩ := hsf
    rw [PyDict.dumpsEntries] at hparts
    rcases hk : jsonKeyStr k with _ | ks <;> rw [hk] at hparts
    · cases hparts
    rcases hv : PyVal.dumps v with _ | vw <;> rw [hv] at hparts
    · cases hparts
    rcases ht : PyDict.dumpsEntries tl with _ | tparts <;> rw [ht] at hparts
    · cases hparts
    rw [Option.some.injEq] at hparts
    subst hparts
    rcases List.mem_cons.mp hp with h | h
    · subst h
      by_contra hws0
      rw [Bool.not_eq_false] at hws0
      rcases List.mem_append.mp hx with h2 | h2
      · obtain ⟨-, hsp⟩ := encodeJsonString_ws ks x h2 hws0
        exact absurd (jsonKeyStr_spaceFree k ks hk hksf ' ' hsp) (by decide)
      · rcases List.mem_cons.mp h2 with h3 | h3
        · subst h3; exact absurd hws0 (by decide)
        · rw [dumps_nows v vw hvsf hv x h3] at hws0
          cases hws0
    · exact dumpsEntries_nows tl tparts htsf ht p h x hx

end

theorem jsonLoads_dumps (v : PyVal) (w : List Char)
    (hl : PyVal.loadable v = true) (hd : PyVal.dumps v = some w) :
    jsonLoads w = some (PyVal.specNormal v) := by
  have hf := dumps_fdepth v w hd
  have hrt := (parse_roundtrip (w.length + 1)).1 v w [] hl (by omega) hd rfl
  rw [List.append_nil] at hrt
  unfold jsonLoads
  rw [hrt]
  simp [skipWs]

/-! ## Claim theorems: serializer -/

/-- C5 (original form refuted): the claim ranges over every GELFDocument,
and the spec's documents may hold tuple values (a "sequence kind" the
sanitizer preserves).  For such a document the serializer emits a JSON
array, which decodes as a list, so the decoded mapping differs from the
sanitized document. -/
theorem serializer_c5_counterexample :
    (BaseGELFHandler._message_to_pickle c5tup).isSome = true ∧
    (jsonLoadsBytes ((BaseGELFHandler._message_to_pickle c5tup).getD [])).isSome
      = true ∧
    (jsonLoadsBytes ((BaseGELFHandler._message_to_pickle c5tup).getD [])).getD
        PyVal.pynone ≠ PyVal.specNormal (PyVal.sanitize c5tup) := by
  refine ⟨by decide, by decide, by decide⟩

/-- C5 (amended): for every document with no tuple values and only text or
byte-string mapping keys, JSON-decoding the serializer's output bytes
yields exactly the sanitized document with unsupported values mapped
through the isoformat/repr fallback; every whitespace byte of the output
is a space, and on documents whose sanitized text content holds no
whitespace the output holds no whitespace at all, so none is inserted
between tokens. -/
theorem serializer_c5 (doc : PyVal) (b : List Nat)
    (hdoc : PyVal.docOk doc = true)
    (hb : BaseGELFHandler._message_to_pickle doc = some b) :
    jsonLoadsBytes b = some (PyVal.specNormal (PyVal.sanitize doc)) ∧
    (∀ x ∈ b, jsonWs (Char.ofNat x) = true → x = 32) ∧
    (PyVal.spaceFree (PyVal.sanitize doc) = true →
      ∀ x ∈ b, jsonWs (Char.ofNat x) = false) := by
  unfold BaseGELFHandler._message_to_pickle at hb
  rcases hw : PyVal.dumps (PyVal.sanitize doc) with _ | w <;> rw [hw] at hb
  · cases hb
  rw [Option.map_some', Option.some.injEq] at hb
  subst hb
  have hmap : (w.map Char.toNat).map Char.ofNat = w := by
    rw [List.map_map]
    have hcg : ∀ c ∈ w, (Char.ofNat ∘ Char.toNat) c = id c := by
      intro c _
      simp [Function.comp, Char.ofNat_toNat]
    rw [List.map_congr_left hcg, List.map_id]
  refine ⟨?_, ?_, ?_⟩
  · unfold jsonLoadsBytes
    rw [hmap]
    exact jsonLoads_dumps _ w (sanitize_loadable doc hdoc) hw
  · intro x hx hws
    rw [List.mem_map] at hx
    obtain ⟨c, hc, hcx⟩ := hx
    subst hcx
    rw [Char.ofNat_toNat] at hws
    rw [dumps_ws_space (PyVal.sanitize doc) w hw c hc hws]
    rfl
  · intro hsf x hx
    rw [List.mem_map] at hx
    obtain ⟨c, hc, hcx⟩ := hx
    subst hcx
    rw [Char.ofNat_toNat]
    exact dumps_nows (PyVal.sanitize doc) w hsf hw c hc

theorem serializer_c5_witness :
    (PyVal.docOk c5doc = true ∧
      BaseGELFHandler._message_to_pickle c5doc = some c5bytes ∧
      (jsonLoadsBytes c5bytes = some (PyVal.specNormal (PyVal.sanitize c5doc)) ∧
        (∀ x ∈ c5bytes, jsonWs (Char.ofNat x) = true → x = 32) ∧
        (PyVal.spaceFree (PyVal.sanitize c5doc) = true →
          ∀ x ∈ c5bytes, jsonWs (Char.ofNat x) = false))) ∧
    (PyVal.docOk c5tight = true ∧
      BaseGELFHandler._message_to_pickle c5tight = some c5tightBytes ∧
      PyVal.spaceFree (PyVal.sanitize c5tight) = true ∧
      (∀ x ∈ c5tightBytes, jsonWs (Char.ofNat x) = false)) :=
  ⟨⟨by decide, by decide, serializer_c5 c5doc c5bytes (by decide) (by decide)⟩,
   ⟨by decide, by decide, by decide,
    (serializer_c5 c5tight c5tightBytes (by decide) (by decide)).2.2 (by decide)⟩⟩

/-! ## Claim theorems: TCP handler -/

/-- C4 (code bug): the TCP handler is indeed always constructed with
compression disabled, but its `makePickle` never returns a framed
payload: the body evaluates `super.makePickle(self, record)`, an
attribute lookup on the builtin type `super` itself, which raises
`AttributeError` on every record before any serialization or framing. -/
theorem tcp_c4_bug (chunk_size : Nat)
    (debugging_fields extra_fields fqdn : Bool)
    (localname facility : Option String) (level_names : Bool)
    (formatter : Option (LogRecord → String)) (record : LogRecord) :
    (GELFTCPHandler.init chunk_size debugging_fields extra_fields fqdn
        localname facility level_names formatter).compress = false ∧
    GELFTCPHandler.makePickle record =
      .error (.attributeError "type object super has no attribute makePickle") :=
  ⟨rfl, rfl⟩
